import Mathlib

/-!
# cp437: the streaming converter `copy_converted` and the event loop of `main`

A shallow embedding of `cp437.c`.  Bytes are natural numbers, the 4096-byte
array `conv->buf` is a function from offsets to bytes, pointers into it are
offsets, and the effects of a call (the bytes handed to `write`, the system
calls issued) are returned as values.  The library routine `iconv` is not part
of the program: `copy_converted` is embedded over an arbitrary converter, and a
character-by-character converter following the contract of iconv(3) is provided
to instantiate it.
-/

namespace Cp437

/-! ## The conversion state and `copy_converted` -/

/-- The value of `sizeof conv->buf` (and of `sizeof buf` for the output buffer). -/
def sizeof_buf : Nat := 4096

/-- The number of values of a `size_t`. -/
def size_range : Nat := 2 ^ 64

/-- Values of `errno` that `copy_converted` tells apart after `iconv` fails. -/
inductive Errno where
  | EILSEQ
  | E2BIG
  | EINVAL
  | EBADF
  deriving DecidableEq, Repr

/-- What one call `iconv(cd, &inptr, &bytesleft, &outptr, &outbytesleft)` leaves
behind: `err` is `none` when the return value is not `(size_t)-1` and the value
of `errno` otherwise, `adv` is the distance `inptr` moved, `inleft` the value
stored in `bytesleft`, `out` the bytes stored between `buf` and `outptr`. -/
structure IconvResult (σ : Type) where
  err : Option Errno
  cd : σ
  adv : Nat
  inleft : Nat
  out : List Nat

/-- A converter: from the descriptor state, the `*inbytesleft` bytes found at
`*inbuf` and the room `*outbytesleft`, the outcome of the call. -/
abbrev Iconv (σ : Type) := σ → List Nat → Nat → IconvResult σ

/-- The C structure `struct conv`. -/
structure conv (σ : Type) where
  cd : σ
  bytesleft : Nat
  buf : Nat → Nat

/-- What a descriptor has to offer when `read` is called on it: a failure, or
bytes (none at end of stream). -/
inductive Source where
  | failing
  | bytes (l : List Nat)

/-- The call `read(fd, p, count)`: the return value and the bytes transferred,
never more than `count`. -/
def read (src : Source) (count : Nat) : Int × List Nat :=
  match src with
  | .failing => (-1, [])
  | .bytes l => (((l.take count).length : Nat), l.take count)

/-- The array after `data` has been stored from offset `off` on. -/
def store (buf : Nat → Nat) (off : Nat) (data : List Nat) : Nat → Nat :=
  fun i => if off ≤ i ∧ i < off + data.length then data.getD (i - off) 0 else buf i

/-- The call `memmove(buf + dst, buf + src, n)`. -/
def memmove (buf : Nat → Nat) (dst src n : Nat) : Nat → Nat :=
  fun i => if dst ≤ i ∧ i < dst + n then buf (src + (i - dst)) else buf i

/-- The `n` bytes found at offset `off` of the array. -/
def window (buf : Nat → Nat) (off n : Nat) : List Nat :=
  (List.range n).map (fun i => buf (off + i))

/-- One recorded converter call: the byte count it was given and its outcome. -/
structure IconvCall (σ : Type) where
  given : Nat
  res : IconvResult σ

/-- The variables of the do/while loop of `copy_converted`: the descriptor
state, `inptr` as an offset from `conv->buf`, `conv->bytesleft`, the bytes
handed to `write` so far, and the history of converter calls. -/
structure LoopState (σ : Type) where
  cd : σ
  inptr : Nat
  bytesleft : Nat
  written : List Nat
  log : List (IconvCall σ)

/-- How one pass through the body of the do/while loop ends. -/
inductive Pass (σ : Type) where
  | retry (s : LoopState σ)
  | stop (s : LoopState σ)
  | abort

/-- The statement `if (outptr > buf) write(to_fd, buf, outptr - buf);`. -/
def emit (written out : List Nat) : List Nat :=
  if 0 < out.length then written ++ out else written

/-- The call `iconv(conv->cd, &inptr, &conv->bytesleft, &outptr, &outbytesleft)`
of line 57, with `outbytesleft = sizeof buf`. -/
def iconv_call {σ : Type} (ic : Iconv σ) (buf : Nat → Nat) (s : LoopState σ) : IconvResult σ :=
  ic s.cd (window buf s.inptr s.bytesleft) sizeof_buf

/-- Lines 58-69 of the loop body: what follows the return of the converter. -/
def finish {σ : Type} (s : LoopState σ) (r : IconvResult σ) : Pass σ :=
  let inptr := s.inptr + r.adv
  let bytesleft := r.inleft
  let log := s.log ++ [⟨s.bytesleft, r⟩]
  match r.err with
  | some Errno.EILSEQ =>
    if 0 < bytesleft then
      .retry ⟨r.cd, inptr + 1, bytesleft - 1, emit s.written r.out, log⟩
    else .abort
  | some Errno.E2BIG => .retry ⟨r.cd, inptr, bytesleft, emit s.written r.out, log⟩
  | _ => .stop ⟨r.cd, inptr, bytesleft, emit s.written r.out, log⟩

/-- One pass through the body of the do/while loop (lines 52-69). -/
def body {σ : Type} (ic : Iconv σ) (buf : Nat → Nat) (s : LoopState σ) : Pass σ :=
  finish s (iconv_call ic buf s)

/-- How an execution ends: normally, in a failed `assert`, or still running
when the step budget is used up. -/
inductive Exec (α : Type) where
  | done (a : α)
  | assert_failed
  | out_of_fuel

/-- The do/while loop of `copy_converted`, run for at most `fuel` passes. -/
def loop {σ : Type} (ic : Iconv σ) (buf : Nat → Nat) : Nat → LoopState σ → Exec (LoopState σ)
  | 0, _ => .out_of_fuel
  | fuel + 1, s =>
    match body ic buf s with
    | .retry s1 => loop ic buf fuel s1
    | .stop s1 => .done s1
    | .abort => .assert_failed

/-- The loop variables at the start of pass number `n` (counted from 0), or
`none` when the loop has ended before. -/
def iterates {σ : Type} (ic : Iconv σ) (buf : Nat → Nat) : Nat → LoopState σ → Option (LoopState σ)
  | 0, s => some s
  | n + 1, s =>
    match body ic buf s with
    | .retry s1 => iterates ic buf n s1
    | _ => none

/-- What a call of `copy_converted` returns and leaves behind. -/
structure CopyResult (σ : Type) where
  ret : Int
  conv : conv σ
  written : List Nat
  log : List (IconvCall σ)

/-- The byte count passed to `read`: `sizeof conv->buf - conv->bytesleft` in
`size_t` arithmetic. -/
def read_count (bytesleft : Nat) : Nat :=
  (sizeof_buf + size_range - bytesleft % size_range) % size_range

/-- The loop variables on entry to the do/while loop, after a read of `n` bytes. -/
def loop_entry {σ : Type} (c : conv σ) (n : Nat) : LoopState σ :=
  ⟨c.cd, 0, c.bytesleft + n, [], []⟩

/-- The function `copy_converted(to_fd, from_fd, conv)`; `from_fd` is what the
source descriptor offers, and the bytes written to `to_fd` are returned. -/
def copy_converted {σ : Type} (ic : Iconv σ) (fuel : Nat) (from_fd : Source) (c : conv σ) :
    Exec (CopyResult σ) :=
  let rd := read from_fd (read_count c.bytesleft)
  let nbytes := rd.1
  if nbytes < 1 then .done ⟨nbytes, c, [], []⟩
  else
    let buf := store c.buf c.bytesleft rd.2
    match loop ic buf fuel (loop_entry c nbytes.toNat) with
    | .done s =>
      .done ⟨nbytes,
        ⟨s.cd, s.bytesleft, if 0 < s.bytesleft then memmove buf 0 s.inptr s.bytesleft else buf⟩,
        s.written, s.log⟩
    | .assert_failed => .assert_failed
    | .out_of_fuel => .out_of_fuel

/-- The number of recorded converter calls that reported an invalid sequence. -/
def eilseq_calls {σ : Type} (log : List (IconvCall σ)) : Nat :=
  (log.filter (fun k => k.res.err = some Errno.EILSEQ)).length

/-- The number of input bytes the recorded converter calls consumed. -/
def consumed {σ : Type} (log : List (IconvCall σ)) : Nat :=
  (log.map (fun k => k.given - k.res.inleft)).sum

/-- The number of bytes held in `conv->buf` once the read has returned. -/
def held_after_read {σ : Type} (from_fd : Source) (c : conv σ) : Nat :=
  c.bytesleft + (read from_fd (read_count c.bytesleft)).2.length

/-! ## A converter following the contract of iconv(3) -/

/-- How a converter classifies the bytes at its input position: a complete
character of `n` input bytes converting to `out`, an incomplete multibyte
sequence, or an invalid (or unconvertible) one. -/
inductive Step where
  | char (n : Nat) (out : List Nat)
  | incomplete
  | invalid
  deriving DecidableEq, Repr

/-- A conversion without shift state, given by its classification of the
bytes at the input position. -/
abbrev Codec := List Nat → Step

/-- Modelled from the spec: `iconv` belongs to the C library, not to the
repository.  It converts one character at a time and stops on input
exhausted (success), on an invalid sequence (EILSEQ), on an incomplete
sequence at the end of the input (EINVAL), or when the next character does
not fit the output buffer (E2BIG).  `fuel` is the number of input bytes; the
second equation is reached only by a classification consuming no byte. -/
def iconv_loop (next : Codec) : Nat → List Nat → Nat → List Nat → Nat → IconvResult Unit
  | _, [], adv, out, _ => ⟨none, (), adv, 0, out⟩
  | 0, b :: rest, adv, out, _ => ⟨some Errno.EBADF, (), adv, (b :: rest).length, out⟩
  | fuel + 1, b :: rest, adv, out, room =>
    match next (b :: rest) with
    | .invalid => ⟨some Errno.EILSEQ, (), adv, (b :: rest).length, out⟩
    | .incomplete => ⟨some Errno.EINVAL, (), adv, (b :: rest).length, out⟩
    | .char n o =>
      if o.length ≤ room then
        iconv_loop next fuel ((b :: rest).drop n) (adv + n) (out ++ o) (room - o.length)
      else ⟨some Errno.E2BIG, (), adv, (b :: rest).length, out⟩

/-- Modelled from the spec: the converter of a conversion descriptor opened
for the conversion `next` (see `iconv_loop`). -/
def iconv_of (next : Codec) : Iconv Unit :=
  fun _ inp room => iconv_loop next inp.length inp 0 [] room

/-- The conversion of a byte sequence made of complete, valid characters;
`none` when the sequence is not of that form. -/
def decode_all (next : Codec) : Nat → List Nat → Option (List Nat)
  | _, [] => some []
  | 0, _ :: _ => none
  | fuel + 1, b :: rest =>
    match next (b :: rest) with
    | .char n o => (decode_all next fuel ((b :: rest).drop n)).map (fun t => o ++ t)
    | _ => none

/-- The conversion of a validly encoded byte sequence. -/
def convert (next : Codec) (s : List Nat) : Option (List Nat) :=
  decode_all next s.length s

/-- The passes of the do/while loop that remain once the converter has
returned `r` in the current pass. -/
def resume {σ : Type} (ic : Iconv σ) (buf : Nat → Nat) (fuel : Nat) (s : LoopState σ)
    (r : IconvResult σ) : Exec (LoopState σ) :=
  match finish s r with
  | .retry s1 => loop ic buf fuel s1
  | .stop s1 => .done s1
  | .abort => .assert_failed

/-- What the contract of iconv(3) presupposes of a classification: a character
takes at least one byte and no more than there are, it is recognised from its
own bytes alone, and its conversion fits the output buffer. -/
structure WellFormed (next : Codec) : Prop where
  char_pos : ∀ w n o, next w = .char n o → 0 < n ∧ n ≤ w.length
  char_ext : ∀ w n o t, next w = .char n o → next (w.take n ++ t) = .char n o
  out_le : ∀ w n o, next w = .char n o → o.length ≤ sizeof_buf

/-- Every nonempty proper initial part of a character is classified as an
incomplete sequence. -/
def SelfDelimiting (next : Codec) : Prop :=
  ∀ w n o k, next w = .char n o → 0 < k → k < n → next (w.take k) = .incomplete

/-- An incomplete sequence is shorter than the buffer of `struct conv`. -/
def ShortIncomplete (next : Codec) : Prop :=
  ∀ w, next w = .incomplete → w.length < sizeof_buf

/-- Printable 7-bit bytes pass through the conversion unchanged. -/
def AsciiTransparent (next : Codec) : Prop :=
  ∀ b t, 0x20 ≤ b → b ≤ 0x7E → next (b :: t) = .char 1 [b]

/-- Modelled from the spec: the code points of the CP437 bytes 0x80..0xFF
(the table lives in the C library). -/
def cp437_high : List Nat :=
  [0x00C7, 0x00FC, 0x00E9, 0x00E2, 0x00E4, 0x00E0, 0x00E5, 0x00E7,
   0x00EA, 0x00EB, 0x00E8, 0x00EF, 0x00EE, 0x00EC, 0x00C4, 0x00C5,
   0x00C9, 0x00E6, 0x00C6, 0x00F4, 0x00F6, 0x00F2, 0x00FB, 0x00F9,
   0x00FF, 0x00D6, 0x00DC, 0x00A2, 0x00A3, 0x00A5, 0x20A7, 0x0192,
   0x00E1, 0x00ED, 0x00F3, 0x00FA, 0x00F1, 0x00D1, 0x00AA, 0x00BA,
   0x00BF, 0x2310, 0x00AC, 0x00BD, 0x00BC, 0x00A1, 0x00AB, 0x00BB,
   0x2591, 0x2592, 0x2593, 0x2502, 0x2524, 0x2561, 0x2562, 0x2556,
   0x2555, 0x2563, 0x2551, 0x2557, 0x255D, 0x255C, 0x255B, 0x2510,
   0x2514, 0x2534, 0x252C, 0x251C, 0x2500, 0x253C, 0x255E, 0x255F,
   0x255A, 0x2554, 0x2569, 0x2566, 0x2560, 0x2550, 0x256C, 0x2567,
   0x2568, 0x2564, 0x2565, 0x2559, 0x2558, 0x2552, 0x2553, 0x256B,
   0x256A, 0x2518, 0x250C, 0x2588, 0x2584, 0x258C, 0x2590, 0x2580,
   0x03B1, 0x00DF, 0x0393, 0x03C0, 0x03A3, 0x03C3, 0x00B5, 0x03C4,
   0x03A6, 0x0398, 0x03A9, 0x03B4, 0x221E, 0x03C6, 0x03B5, 0x2229,
   0x2261, 0x00B1, 0x2265, 0x2264, 0x2320, 0x2321, 0x00F7, 0x2248,
   0x00B0, 0x2219, 0x00B7, 0x221A, 0x207F, 0x00B2, 0x25A0, 0x00A0]

/-- Modelled from the spec: the code point of a CP437 byte; the lower half
is ASCII. -/
def cp437_to_ucs (b : Nat) : Nat :=
  if b < 0x80 then b else cp437_high.getD (b - 0x80) 0

/-- Modelled from the spec: the CP437 byte of a code point, when there is one. -/
def ucs_to_cp437 (cp : Nat) : Option Nat :=
  if cp < 0x80 then some cp
  else (cp437_high.indexOf? cp).map (fun i => i + 0x80)

/-- The UTF-8 encoding of a code point. -/
def utf8_encode (cp : Nat) : List Nat :=
  if cp < 0x80 then [cp]
  else if cp < 0x800 then [0xC0 + cp / 64, 0x80 + cp % 64]
  else if cp < 0x10000 then [0xE0 + cp / 4096, 0x80 + cp / 64 % 64, 0x80 + cp % 64]
  else [0xF0 + cp / 262144, 0x80 + cp / 4096 % 64, 0x80 + cp / 64 % 64, 0x80 + cp % 64]

/-- A UTF-8 continuation byte. -/
def is_cont (b : Nat) : Bool := 0x80 ≤ b && b ≤ 0xBF

/-- A decoded character of `n` bytes with code point `cp`, converted to CP437.
A character outside CP437, which `//TRANSLIT` would approximate in a way that
depends on the locale, is reported as unconvertible. -/
def to_cp437 (n cp : Nat) : Step :=
  match ucs_to_cp437 cp with
  | some x => .char n [x]
  | none => .invalid

/-- The code point of a two-byte UTF-8 sequence. -/
def utf8_cp2 (b c1 : Nat) : Nat := (b - 0xC0) * 64 + (c1 - 0x80)

/-- The code point of a three-byte UTF-8 sequence. -/
def utf8_cp3 (b c1 c2 : Nat) : Nat := (b - 0xE0) * 4096 + (c1 - 0x80) * 64 + (c2 - 0x80)

/-- The code point of a four-byte UTF-8 sequence. -/
def utf8_cp4 (b c1 c2 c3 : Nat) : Nat :=
  (b - 0xF0) * 262144 + (c1 - 0x80) * 4096 + (c2 - 0x80) * 64 + (c3 - 0x80)

/-- Modelled from the spec: the conversion opened by
`iconv_open("CP437//TRANSLIT", "")` in a UTF-8 locale (terminal to child).
A byte that cannot start a character, a missing continuation byte and an
overlong encoding are invalid; a character cut short by the end of the input
is incomplete. -/
def utf8_to_cp437 : Codec
  | [] => .incomplete
  | b :: rest =>
    if b < 0x80 then to_cp437 1 b
    else if b < 0xC2 then .invalid
    else if b < 0xE0 then
      match rest with
      | [] => .incomplete
      | c1 :: _ => if is_cont c1 then to_cp437 2 (utf8_cp2 b c1) else .invalid
    else if b < 0xF0 then
      match rest with
      | [] => .incomplete
      | [c1] => if is_cont c1 then .incomplete else .invalid
      | c1 :: c2 :: _ =>
        if is_cont c1 && is_cont c2 then
          if utf8_cp3 b c1 c2 < 0x800 then .invalid else to_cp437 3 (utf8_cp3 b c1 c2)
        else .invalid
    else if b < 0xF5 then
      match rest with
      | [] => .incomplete
      | [c1] => if is_cont c1 then .incomplete else .invalid
      | [c1, c2] => if is_cont c1 && is_cont c2 then .incomplete else .invalid
      | c1 :: c2 :: c3 :: _ =>
        if is_cont c1 && is_cont c2 && is_cont c3 then
          if utf8_cp4 b c1 c2 c3 < 0x10000 then .invalid
          else to_cp437 4 (utf8_cp4 b c1 c2 c3)
        else .invalid
    else .invalid

/-- Modelled from the spec: the conversion opened by
`iconv_open("//TRANSLIT", "CP437")` in a UTF-8 locale (child to terminal). -/
def cp437_to_utf8 : Codec
  | [] => .incomplete
  | b :: _ => if b < 0x100 then .char 1 (utf8_encode (cp437_to_ucs b)) else .invalid

/-- A conversion state as `main` sets it up: `bytesleft = 0`. -/
def fresh_conv : conv Unit := ⟨(), 0, fun _ => 0⟩

/-- The echo scenario: `input` is read from the terminal and converted for the
child; the child writes back verbatim what it received; that is read from the
pty master and converted for the terminal.  The result is what the child
received and what the terminal is sent. -/
def echo_round (fuel : Nat) (input : List Nat) : Option (List Nat × List Nat) :=
  match copy_converted (iconv_of utf8_to_cp437) fuel (.bytes input) fresh_conv with
  | .done r1 =>
    match copy_converted (iconv_of cp437_to_utf8) fuel (.bytes r1.written) fresh_conv with
    | .done r2 => some (r1.written, r2.written)
    | _ => none
  | _ => none

/-! ## The event loop of `main` -/

/-- Terminal attributes (`struct termios`), kept abstract. -/
abbrev Termios := Nat

/-- The C structure `struct winsize`. -/
structure Winsize where
  rows : Nat
  cols : Nat
  deriving DecidableEq, Repr

/-- The descriptors `main` works with; `winch` is `sigwinch_pipe[0]`. -/
inductive Fd where
  | stdin
  | stdout
  | stderr
  | master
  | winch
  deriving DecidableEq, Repr

/-- The system calls of the event loop and of the exit path, as they are
recorded in the order of their execution.  The writes of one call of
`copy_converted` are recorded as one action. -/
inductive Action where
  | read (fd : Fd) (ret : Int)
  | write (fd : Fd) (bytes : List Nat)
  | get_winsize (fd : Fd) (res : Option Winsize)
  | set_winsize (fd : Fd) (ws : Winsize)
  | close (fd : Fd)
  | waitpid (interrupted : Bool)
  | tcsetattr (fd : Fd) (t : Termios)
  deriving DecidableEq, Repr

/-- What `main` runs in: the two converters, the terminal device behind each
descriptor, and the effect of `cfmakeraw` on attributes. -/
structure Env (σ τ : Type) where
  ic_to : Iconv σ
  ic_from : Iconv τ
  tty : Fd → Nat
  cfmakeraw : Termios → Termios

/-- The variables of `main` and the part of the system they act on: the two
conversion states, `win`, `term_orig`, the attributes of each terminal device,
the window size of the pseudo-terminal, the number of markers in the pipe, and
the system calls issued so far. -/
structure Session (σ τ : Type) where
  to_child : conv σ
  from_child : conv τ
  win : Winsize
  term_orig : Termios
  tty_attr : Nat → Termios
  pty_win : Winsize
  pipe : Nat
  trace : List Action

/-- The signal handler `sigwinch`: one marker byte is written to the pipe. -/
def sigwinch (pipe : Nat) : Nat := pipe + 1

/-- The outcome of `select`: interrupted (EINTR), failed otherwise, or the
results of `FD_ISSET` for standard input, the pty master and the pipe. -/
inductive Select where
  | eintr
  | failed
  | ready (stdin master winch : Bool)
  deriving DecidableEq, Repr

/-- What the system presents during one pass of the event loop: the number of
SIGWINCH deliveries before `select` returns, the outcome of `select`, what the
two sources offer to `read`, and what TIOCGWINSZ reports (`none`: the ioctl
fails and `win` keeps its value). -/
structure Round where
  signals : Nat
  select : Select
  stdin : Source
  master : Source
  winsize : Option Winsize

/-- The call `tcsetattr(fd, TCSANOW, &t)`: the attributes of the terminal
behind `fd` become `t`. -/
def tcsetattr {σ τ : Type} (E : Env σ τ) (fd : Fd) (t : Termios) (s : Session σ τ) :
    Session σ τ :=
  { s with tty_attr := fun d => if d = E.tty fd then t else s.tty_attr d,
           trace := s.trace ++ [Action.tcsetattr fd t] }

/-- The system calls of one call of `copy_converted` that returned `ret`
after writing `written`. -/
def copy_actions (to_fd from_fd : Fd) (ret : Int) (written : List Nat) : List Action :=
  Action.read from_fd ret :: (if 0 < written.length then [Action.write to_fd written] else [])

/-- Lines 192-198: the marker is drained, the size of the real terminal is
queried into `win`, and `win` is pushed to the pseudo-terminal. -/
def resize {σ τ : Type} (r : Round) (s : Session σ τ) : Session σ τ :=
  let win := r.winsize.getD s.win
  { s with win := win, pty_win := win, pipe := s.pipe - 1,
           trace := s.trace ++ [Action.read Fd.winch 1, Action.get_winsize Fd.stdin r.winsize,
                                Action.set_winsize Fd.master win] }

/-- Lines 186-198 of the loop body: the pty master, then the pipe.  The
boolean tells whether the loop is left (`break`). -/
def serve_master {σ τ : Type} (E : Env σ τ) (fuel : Nat) (r : Round) (master winch : Bool)
    (s : Session σ τ) : Exec (Session σ τ × Bool) :=
  if master then
    match copy_converted E.ic_from fuel r.master s.from_child with
    | .done c =>
      let s1 := { s with from_child := c.conv,
                         trace := s.trace ++ copy_actions Fd.stdout Fd.master c.ret c.written }
      if c.ret < 1 then .done (s1, true)
      else .done (if winch then resize r s1 else s1, false)
    | .assert_failed => .assert_failed
    | .out_of_fuel => .out_of_fuel
  else .done (if winch then resize r s else s, false)

/-- One pass through the body of `while (1)` (lines 165-198).  The boolean
tells whether the loop is left (`break`). -/
def iteration {σ τ : Type} (E : Env σ τ) (fuel : Nat) (r : Round) (s0 : Session σ τ) :
    Exec (Session σ τ × Bool) :=
  let s := { s0 with pipe := Nat.iterate sigwinch r.signals s0.pipe }
  match r.select with
  | .eintr => .done (s, false)
  | .failed => .done (s, true)
  | .ready stdin master winch =>
    if stdin then
      match copy_converted E.ic_to fuel r.stdin s.to_child with
      | .done c =>
        let s1 := { s with to_child := c.conv,
                           trace := s.trace ++ copy_actions Fd.master Fd.stdin c.ret c.written }
        if c.ret < 1 then .done (s1, true)
        else serve_master E fuel r master winch s1
      | .assert_failed => .assert_failed
      | .out_of_fuel => .out_of_fuel
    else serve_master E fuel r master winch s

/-- The loop `while (1)` over the rounds the system presents.  The boolean
tells whether the loop was left; with no round remaining `main` is still
blocked in `select`. -/
def event_loop {σ τ : Type} (E : Env σ τ) (fuel : Nat) :
    List Round → Session σ τ → Exec (Session σ τ × Bool)
  | [], s => .done (s, false)
  | r :: rs, s =>
    match iteration E fuel r s with
    | .done (s1, true) => .done (s1, true)
    | .done (s1, false) => event_loop E fuel rs s1
    | .assert_failed => .assert_failed
    | .out_of_fuel => .out_of_fuel

/-- Modelled from the spec: the macro `WIFEXITED` of `<sys/wait.h>`, which is
not part of the repository: normal termination is a wait status whose low
seven bits are zero. -/
def WIFEXITED (status : Nat) : Bool := status % 128 = 0

/-- Modelled from the spec: the macro `WEXITSTATUS` of `<sys/wait.h>`, which
is not part of the repository: the exit status (0-255) of the child is the
second byte of the wait status. -/
def WEXITSTATUS (status : Nat) : Nat := status / 256 % 256

/-- How the wait for the child goes: the number of times `waitpid` fails with
EINTR, and then the wait status it stores. -/
structure Wait where
  interrupts : Nat
  status : Nat

/-- The loop `while (waitpid(childpid, &status, 0) < 0 && errno == EINTR);`. -/
def wait_child : Nat → List Action
  | 0 => [Action.waitpid false]
  | n + 1 => Action.waitpid true :: wait_child n

/-- Lines 201-211: the pty is closed, the child is waited for, the saved
attributes are applied to the three standard descriptors, and `main` returns
the exit status. -/
def shutdown {σ τ : Type} (E : Env σ τ) (w : Wait) (s : Session σ τ) : Session σ τ × Nat :=
  let s1 := { s with trace := s.trace ++ Action.close Fd.master :: wait_child w.interrupts }
  let s2 := tcsetattr E Fd.stderr s1.term_orig
    (tcsetattr E Fd.stdout s1.term_orig (tcsetattr E Fd.stdin s1.term_orig s1))
  (s2, if WIFEXITED w.status then WEXITSTATUS w.status else 127)

/-- Lines 127-161: the state in which the event loop is entered.  `attr` gives
the attributes of each terminal device when `main` starts, `win` the window
size queried at startup, which `forkpty` gives to the pseudo-terminal. -/
def startup {σ τ : Type} (E : Env σ τ) (attr : Nat → Termios) (win : Winsize)
    (to_child : conv σ) (from_child : conv τ) : Session σ τ :=
  let term := attr (E.tty Fd.stdin)
  tcsetattr E Fd.stdin (E.cfmakeraw term)
    { to_child := { to_child with bytesleft := 0 },
      from_child := { from_child with bytesleft := 0 },
      win := win, term_orig := term, tty_attr := attr, pty_win := win, pipe := 0, trace := [] }

/-- The function `main` from line 127 on, in the parent process once `forkpty`
has succeeded, over the rounds the system presents: the final state and the
value returned, or `none` while `main` is still blocked in `select`. -/
def main {σ τ : Type} (E : Env σ τ) (fuel : Nat) (attr : Nat → Termios) (win : Winsize)
    (to_child : conv σ) (from_child : conv τ) (rounds : List Round) (w : Wait) :
    Exec (Option (Session σ τ × Nat)) :=
  match event_loop E fuel rounds (startup E attr win to_child from_child) with
  | .done (s, true) => .done (some (shutdown E w s))
  | .done (_, false) => .done none
  | .assert_failed => .assert_failed
  | .out_of_fuel => .out_of_fuel

/-- The attributes of terminal device `d` when `main` has returned. -/
def final_attr {σ τ : Type} (x : Exec (Option (Session σ τ × Nat))) (d : Nat) : Option Termios :=
  match x with
  | .done (some (s, _)) => some (s.tty_attr d)
  | _ => none

/-- The system calls issued up to the end of a pass of the event loop. -/
def pass_trace {σ τ : Type} (x : Exec (Session σ τ × Bool)) : Option (List Action) :=
  match x with
  | .done (s, _) => some s.trace
  | _ => none

/-- An environment for a UTF-8 terminal in which standard output is open on
another terminal (device 1) than standard input and standard error (device 0). -/
def two_terminals : Env Unit Unit :=
  { ic_to := iconv_of utf8_to_cp437, ic_from := iconv_of cp437_to_utf8,
    tty := fun fd => if fd = Fd.stdout then 1 else 0,
    cfmakeraw := fun t => t + 1000 }

/-- An environment for a UTF-8 terminal with the three standard descriptors
open on the same terminal. -/
def one_terminal : Env Unit Unit :=
  { ic_to := iconv_of utf8_to_cp437, ic_from := iconv_of cp437_to_utf8,
    tty := fun _ => 0,
    cfmakeraw := fun t => t + 1000 }

/-- A round in which standard input is at end of stream. -/
def round_eof : Round :=
  { signals := 0, select := .ready true false false, stdin := .bytes [], master := .bytes [],
    winsize := none }

/-- A round in which a SIGWINCH has been delivered and `select` reports both
the pty master (one byte of child output) and the pipe ready. -/
def round_resize : Round :=
  { signals := 1, select := .ready false true true, stdin := .bytes [],
    master := .bytes [0x41], winsize := some ⟨50, 132⟩ }

/-- The session state after a pass of the event loop, or `s` if the pass did
not complete. -/
def pass_state {σ τ : Type} (x : Exec (Session σ τ × Bool)) (s : Session σ τ) : Session σ τ :=
  match x with
  | .done (s1, _) => s1
  | _ => s

/-- The session of `one_terminal` on entry to the event loop, on a terminal of
24 rows by 80 columns with attributes 7. -/
def session_24x80 : Session Unit Unit :=
  startup one_terminal (fun _ => 7) ⟨24, 80⟩ fresh_conv fresh_conv

/-! # Theorems -/

/-! ## Basic facts about the buffer and one pass of the loop -/

theorem window_length (buf : Nat → Nat) (off n : Nat) : (window buf off n).length = n := by
  simp [window]

theorem emit_eq (w o : List Nat) : emit w o = w ++ o := by
  unfold emit
  split
  · rfl
  · have h : o = [] := by
      cases o with
      | nil => rfl
      | cons a t => simp at *
    simp [h]

/-- The four ways one pass of the loop can go, read off the converter's outcome. -/
theorem body_cases {σ : Type} (ic : Iconv σ) (buf : Nat → Nat) (s : LoopState σ) :
    ((iconv_call ic buf s).err = some Errno.EILSEQ ∧ 0 < (iconv_call ic buf s).inleft ∧
      body ic buf s = .retry ⟨(iconv_call ic buf s).cd, s.inptr + (iconv_call ic buf s).adv + 1,
        (iconv_call ic buf s).inleft - 1, s.written ++ (iconv_call ic buf s).out,
        s.log ++ [⟨s.bytesleft, iconv_call ic buf s⟩]⟩) ∨
    ((iconv_call ic buf s).err = some Errno.EILSEQ ∧ (iconv_call ic buf s).inleft = 0 ∧
      body ic buf s = .abort) ∨
    ((iconv_call ic buf s).err = some Errno.E2BIG ∧
      body ic buf s = .retry ⟨(iconv_call ic buf s).cd, s.inptr + (iconv_call ic buf s).adv,
        (iconv_call ic buf s).inleft, s.written ++ (iconv_call ic buf s).out,
        s.log ++ [⟨s.bytesleft, iconv_call ic buf s⟩]⟩) ∨
    ((iconv_call ic buf s).err ≠ some Errno.EILSEQ ∧ (iconv_call ic buf s).err ≠ some Errno.E2BIG ∧
      body ic buf s = .stop ⟨(iconv_call ic buf s).cd, s.inptr + (iconv_call ic buf s).adv,
        (iconv_call ic buf s).inleft, s.written ++ (iconv_call ic buf s).out,
        s.log ++ [⟨s.bytesleft, iconv_call ic buf s⟩]⟩) := by
  unfold body finish
  simp only [emit_eq]
  generalize iconv_call ic buf s = r
  rcases h : r.err with _ | e
  · simp
  · cases e <;> simp
    by_cases h0 : 0 < r.inleft
    · left; omega
    · right; omega

/-! ## Invariants of the do/while loop -/

theorem iterates_inv {σ : Type} (ic : Iconv σ) (buf : Nat → Nat) (P : LoopState σ → Prop)
    (hstep : ∀ s s1, P s → body ic buf s = .retry s1 → P s1) :
    ∀ n s0 s, P s0 → iterates ic buf n s0 = some s → P s := by
  intro n
  induction n with
  | zero =>
    intro s0 s h0 h
    simp [iterates] at h
    exact h ▸ h0
  | succ n ih =>
    intro s0 s h0 h
    unfold iterates at h
    cases hb : body ic buf s0 with
    | retry s1 =>
      rw [hb] at h
      exact ih s1 s (hstep s0 s1 h0 hb) h
    | stop s1 => rw [hb] at h; simp at h
    | abort => rw [hb] at h; simp at h

theorem loop_inv {σ : Type} (ic : Iconv σ) (buf : Nat → Nat) (P : LoopState σ → Prop)
    (hstep : ∀ s s1, P s → body ic buf s = .retry s1 → P s1) :
    ∀ fuel s0 s, P s0 → loop ic buf fuel s0 = .done s →
      ∃ s1, P s1 ∧ body ic buf s1 = .stop s := by
  intro fuel
  induction fuel with
  | zero =>
    intro s0 s _ h
    simp [loop] at h
  | succ n ih =>
    intro s0 s h0 h
    unfold loop at h
    cases hb : body ic buf s0 with
    | retry s1 =>
      rw [hb] at h
      exact ih s1 s (hstep s0 s1 h0 hb) h
    | stop s1 =>
      rw [hb] at h
      simp at h
      exact ⟨s0, h0, h ▸ hb⟩
    | abort => rw [hb] at h; simp at h

theorem loop_no_abort {σ : Type} (ic : Iconv σ) (buf : Nat → Nat) (P : LoopState σ → Prop)
    (hstep : ∀ s s1, P s → body ic buf s = .retry s1 → P s1)
    (hsafe : ∀ s, P s → body ic buf s ≠ .abort) :
    ∀ fuel s0, P s0 → loop ic buf fuel s0 ≠ .assert_failed := by
  intro fuel
  induction fuel with
  | zero =>
    intro s0 _ h
    simp [loop] at h
  | succ n ih =>
    intro s0 h0 h
    unfold loop at h
    cases hb : body ic buf s0 with
    | retry s1 =>
      rw [hb] at h
      exact ih s1 (hstep s0 s1 h0 hb) h
    | stop s1 => rw [hb] at h; simp at h
    | abort => exact hsafe s0 h0 hb

theorem loop_terminates {σ : Type} (ic : Iconv σ) (buf : Nat → Nat) (P : LoopState σ → Prop)
    (hstep : ∀ s s1, P s → body ic buf s = .retry s1 → P s1)
    (hdec : ∀ s s1, P s → body ic buf s = .retry s1 → s1.bytesleft < s.bytesleft) :
    ∀ fuel s0, P s0 → s0.bytesleft < fuel → loop ic buf fuel s0 ≠ .out_of_fuel := by
  intro fuel
  induction fuel with
  | zero =>
    intro s0 _ hlt
    omega
  | succ n ih =>
    intro s0 h0 hlt h
    unfold loop at h
    cases hb : body ic buf s0 with
    | retry s1 =>
      rw [hb] at h
      have := hdec s0 s1 h0 hb
      exact ih s1 (hstep s0 s1 h0 hb) (by omega) h
    | stop s1 => rw [hb] at h; simp at h
    | abort => rw [hb] at h; simp at h

theorem read_count_eq (n : Nat) (h : n ≤ sizeof_buf) : read_count n = sizeof_buf - n := by
  simp only [read_count, sizeof_buf, size_range] at *
  norm_num
  omega

theorem read_bytes_fit (c_left : Nat) (data : List Nat) (hc : c_left ≤ sizeof_buf)
    (hd : data.length ≤ sizeof_buf - c_left) :
    read (.bytes data) (read_count c_left) = ((data.length : Int), data) := by
  rw [read_count_eq c_left hc]
  simp [read, List.take_of_length_le hd]

/-- What `copy_converted` does once the read has returned `data`, one byte at least. -/
theorem copy_converted_data {σ : Type} (ic : Iconv σ) (fuel : Nat) (c : conv σ) (data : List Nat)
    (hc : c.bytesleft ≤ sizeof_buf)
    (hd : 1 ≤ data.length ∧ data.length ≤ sizeof_buf - c.bytesleft) :
    copy_converted ic fuel (.bytes data) c =
      match loop ic (store c.buf c.bytesleft data) fuel (loop_entry c data.length) with
      | .done s =>
        .done ⟨(data.length : Int),
          ⟨s.cd, s.bytesleft,
            if 0 < s.bytesleft then memmove (store c.buf c.bytesleft data) 0 s.inptr s.bytesleft
            else store c.buf c.bytesleft data⟩,
          s.written, s.log⟩
      | .assert_failed => .assert_failed
      | .out_of_fuel => .out_of_fuel := by
  unfold copy_converted
  rw [read_bytes_fit c.bytesleft data hc hd.2]
  have h1 : ¬ ((data.length : Nat) : Int) < 1 := by omega
  simp only [h1, if_false, Int.toNat_ofNat]

/-! ## Buffer bounds (C10) -/

/-- C10: after a read of `data` (1 to `4096 - bytesleft` bytes) into a state
with `bytesleft <= 4096`, and for a converter that advances `inptr` by exactly
what it takes off `bytesleft`, at the start of every pass of the retry loop and
when the loop ends the offset of `inptr` plus `bytesleft` equals the entry
`bytesleft` plus the bytes read and is at most 4096, so the final `memmove`
reads inside the buffer; and if the converter reports an invalid sequence only
before the end of its input, the assertion never fails. -/
theorem copy_converted_buffer_bounds {σ : Type} (ic : Iconv σ) (c : conv σ) (data : List Nat)
    (hc : c.bytesleft ≤ sizeof_buf)
    (hd : 1 ≤ data.length ∧ data.length ≤ sizeof_buf - c.bytesleft)
    (hadv : ∀ cd inp, (ic cd inp sizeof_buf).adv + (ic cd inp sizeof_buf).inleft = inp.length) :
    (∀ n s, iterates ic (store c.buf c.bytesleft data) n (loop_entry c data.length) = some s →
      s.inptr + s.bytesleft = c.bytesleft + data.length ∧ s.inptr + s.bytesleft ≤ sizeof_buf) ∧
    (∀ fuel r, copy_converted ic fuel (.bytes data) c = .done r →
      ∃ s, loop ic (store c.buf c.bytesleft data) fuel (loop_entry c data.length) = .done s ∧
        s.inptr + s.bytesleft = c.bytesleft + data.length ∧ s.inptr + s.bytesleft ≤ sizeof_buf ∧
        r.conv.bytesleft = s.bytesleft ∧
        r.conv.buf = (if 0 < s.bytesleft
          then memmove (store c.buf c.bytesleft data) 0 s.inptr s.bytesleft
          else store c.buf c.bytesleft data)) ∧
    ((∀ cd inp, (ic cd inp sizeof_buf).err = some Errno.EILSEQ →
        (ic cd inp sizeof_buf).adv < inp.length) →
      ∀ fuel, copy_converted ic fuel (.bytes data) c ≠ .assert_failed) := by
  have hP : ∀ s s1 : LoopState σ, s.inptr + s.bytesleft = c.bytesleft + data.length →
      (body ic (store c.buf c.bytesleft data) s = .retry s1 ∨
        body ic (store c.buf c.bytesleft data) s = .stop s1) →
      s1.inptr + s1.bytesleft = c.bytesleft + data.length := by
    intro s s1 hs hb
    have ha := hadv s.cd (window (store c.buf c.bytesleft data) s.inptr s.bytesleft)
    rw [window_length] at ha
    change (iconv_call ic (store c.buf c.bytesleft data) s).adv +
      (iconv_call ic (store c.buf c.bytesleft data) s).inleft = s.bytesleft at ha
    rcases body_cases ic (store c.buf c.bytesleft data) s with
      ⟨_, h0, hb1⟩ | ⟨_, _, hb1⟩ | ⟨_, hb1⟩ | ⟨_, _, hb1⟩ <;>
      rw [hb1] at hb <;> simp at hb <;> subst hb <;> simp <;> omega
  have h0 : (loop_entry c data.length).inptr + (loop_entry c data.length).bytesleft =
      c.bytesleft + data.length := by
    simp [loop_entry]
  refine ⟨?_, ?_, ?_⟩
  · intro n s h
    have := iterates_inv ic (store c.buf c.bytesleft data)
      (fun s => s.inptr + s.bytesleft = c.bytesleft + data.length)
      (fun s s1 hs hb => hP s s1 hs (Or.inl hb)) n _ s h0 h
    simp only at this
    omega
  · intro fuel r h
    rw [copy_converted_data ic fuel c data hc hd] at h
    cases hl : loop ic (store c.buf c.bytesleft data) fuel (loop_entry c data.length) with
    | done s =>
      rw [hl] at h
      simp at h
      obtain ⟨s1, hs1, hb⟩ := loop_inv ic (store c.buf c.bytesleft data)
        (fun s => s.inptr + s.bytesleft = c.bytesleft + data.length)
        (fun s s1 hs hb => hP s s1 hs (Or.inl hb)) fuel _ s h0 hl
      have := hP s1 s hs1 (Or.inr hb)
      refine ⟨s, rfl, this, by omega, ?_, ?_⟩ <;> rw [← h]
    | assert_failed => rw [hl] at h; simp at h
    | out_of_fuel => rw [hl] at h; simp at h
  · intro hil fuel h
    rw [copy_converted_data ic fuel c data hc hd] at h
    have hna := loop_no_abort ic (store c.buf c.bytesleft data)
      (fun s => s.inptr + s.bytesleft = c.bytesleft + data.length)
      (fun s s1 hs hb => hP s s1 hs (Or.inl hb))
      (by
        intro s _ hb
        have ha := hadv s.cd (window (store c.buf c.bytesleft data) s.inptr s.bytesleft)
        have hi := hil s.cd (window (store c.buf c.bytesleft data) s.inptr s.bytesleft)
        rw [window_length] at ha hi
        change (iconv_call ic (store c.buf c.bytesleft data) s).adv +
          (iconv_call ic (store c.buf c.bytesleft data) s).inleft = s.bytesleft at ha
        change (iconv_call ic (store c.buf c.bytesleft data) s).err = some Errno.EILSEQ →
          (iconv_call ic (store c.buf c.bytesleft data) s).adv < s.bytesleft at hi
        rcases body_cases ic (store c.buf c.bytesleft data) s with
          ⟨_, _, hb1⟩ | ⟨he, hz, _⟩ | ⟨_, hb1⟩ | ⟨_, _, hb1⟩
        · rw [hb1] at hb; simp at hb
        · have := hi he
          omega
        · rw [hb1] at hb; simp at hb
        · rw [hb1] at hb; simp at hb)
      fuel _ h0
    cases hl : loop ic (store c.buf c.bytesleft data) fuel (loop_entry c data.length) with
    | done s => rw [hl] at h; simp at h
    | assert_failed => exact hna hl
    | out_of_fuel => rw [hl] at h; simp at h

/-! ## Bounded retries (C9) -/

/-- The two ways a call of `copy_converted` goes on after the read. -/
theorem copy_converted_cases {σ : Type} (ic : Iconv σ) (fuel : Nat) (from_fd : Source)
    (c : conv σ) :
    ((read from_fd (read_count c.bytesleft)).1 < 1 ∧
      (read from_fd (read_count c.bytesleft)).2 = [] ∧
      copy_converted ic fuel from_fd c =
        .done ⟨(read from_fd (read_count c.bytesleft)).1, c, [], []⟩) ∨
    (1 ≤ (read from_fd (read_count c.bytesleft)).2.length ∧
      (read from_fd (read_count c.bytesleft)).2.length ≤ read_count c.bytesleft ∧
      copy_converted ic fuel from_fd c =
        match loop ic (store c.buf c.bytesleft (read from_fd (read_count c.bytesleft)).2) fuel
            (loop_entry c (read from_fd (read_count c.bytesleft)).2.length) with
        | .done s =>
          .done ⟨((read from_fd (read_count c.bytesleft)).2.length : Int),
            ⟨s.cd, s.bytesleft,
              if 0 < s.bytesleft then
                memmove (store c.buf c.bytesleft (read from_fd (read_count c.bytesleft)).2) 0
                  s.inptr s.bytesleft
              else store c.buf c.bytesleft (read from_fd (read_count c.bytesleft)).2⟩,
            s.written, s.log⟩
        | .assert_failed => .assert_failed
        | .out_of_fuel => .out_of_fuel) := by
  unfold copy_converted
  cases from_fd with
  | failing =>
    left
    simp [read]
  | bytes l =>
    by_cases h : (List.take (read_count c.bytesleft) l).length = 0
    · left
      have h2 : List.take (read_count c.bytesleft) l = [] := List.length_eq_zero.mp h
      simp [read, h2]
    · right
      have h1 : ¬ (((List.take (read_count c.bytesleft) l).length : Nat) : Int) < 1 := by omega
      refine ⟨by simp only [read]; omega, ?_, ?_⟩
      · simp only [read]
        exact (List.length_take_le _ _)
      · simp only [read, h1, if_false, Int.toNat_ofNat]

theorem eilseq_calls_append {σ : Type} (l : List (IconvCall σ)) (k : IconvCall σ) :
    eilseq_calls (l ++ [k]) =
      eilseq_calls l + (if k.res.err = some Errno.EILSEQ then 1 else 0) := by
  unfold eilseq_calls
  rw [List.filter_append, List.length_append]
  by_cases h : k.res.err = some Errno.EILSEQ <;> simp [List.filter, h]

theorem consumed_append {σ : Type} (l : List (IconvCall σ)) (k : IconvCall σ) :
    consumed (l ++ [k]) = consumed l + (k.given - k.res.inleft) := by
  simp [consumed]

theorem held_after_read_le {σ : Type} (from_fd : Source) (c : conv σ)
    (hc : c.bytesleft ≤ sizeof_buf) : held_after_read from_fd c ≤ sizeof_buf := by
  unfold held_after_read
  have hrc := read_count_eq _ hc
  cases from_fd with
  | failing => simpa [read] using hc
  | bytes l =>
    have := List.length_take_le (read_count c.bytesleft) l
    simp only [read]
    omega

/-- C9: for a converter that never reports more input left than it was given
and whose output-buffer-full returns have consumed at least one byte, the
retry loop ends within one pass more than the bytes held after the read (at
most 4096 for a state within the buffer): the call returns or stops in the
assertion.  When it returns, the retries caused by invalid sequences, the
bytes the converter consumed and the bytes left over add up to the bytes held
after the read, so those retries are exactly the bytes skipped and at most the
bytes held. -/
theorem copy_converted_bounded_retries {σ : Type} (ic : Iconv σ) (c : conv σ) (from_fd : Source)
    (hle : ∀ cd inp, (ic cd inp sizeof_buf).inleft ≤ inp.length)
    (hbig : ∀ cd inp, (ic cd inp sizeof_buf).err = some Errno.E2BIG →
      (ic cd inp sizeof_buf).inleft < inp.length) :
    (c.bytesleft ≤ sizeof_buf → held_after_read from_fd c ≤ sizeof_buf) ∧
    ∀ fuel, held_after_read from_fd c < fuel →
      copy_converted ic fuel from_fd c = .assert_failed ∨
      ∃ r, copy_converted ic fuel from_fd c = .done r ∧
        eilseq_calls r.log + consumed r.log + r.conv.bytesleft = held_after_read from_fd c ∧
        eilseq_calls r.log ≤ held_after_read from_fd c ∧
        r.log.length ≤ held_after_read from_fd c + 1 := by
  refine ⟨held_after_read_le from_fd c, ?_⟩
  intro fuel hfuel
  rcases copy_converted_cases ic fuel from_fd c with ⟨_, h2, h3⟩ | ⟨_, _, h3⟩
  · right
    refine ⟨_, h3, ?_⟩
    simp [held_after_read, h2, eilseq_calls, consumed]
  · generalize hdata : (read from_fd (read_count c.bytesleft)).2 = data at *
    have hB : held_after_read from_fd c = c.bytesleft + data.length := by
      simp [held_after_read, hdata]
    rw [hB] at hfuel ⊢
    generalize hT : c.bytesleft + data.length = T at *
    let P : LoopState σ → Prop := fun s =>
      eilseq_calls s.log + consumed s.log + s.bytesleft = T ∧ s.log.length + s.bytesleft ≤ T
    have hcall : ∀ s : LoopState σ,
        (iconv_call ic (store c.buf c.bytesleft data) s).inleft ≤ s.bytesleft ∧
        ((iconv_call ic (store c.buf c.bytesleft data) s).err = some Errno.E2BIG →
          (iconv_call ic (store c.buf c.bytesleft data) s).inleft < s.bytesleft) := by
      intro s
      have h1 := hle s.cd (window (store c.buf c.bytesleft data) s.inptr s.bytesleft)
      have h2 := hbig s.cd (window (store c.buf c.bytesleft data) s.inptr s.bytesleft)
      rw [window_length] at h1 h2
      exact ⟨h1, h2⟩
    have hstep : ∀ s s1, P s → body ic (store c.buf c.bytesleft data) s = .retry s1 →
        P s1 ∧ s1.bytesleft < s.bytesleft := by
      intro s s1 hs hb
      obtain ⟨h1, h2⟩ := hcall s
      obtain ⟨hs1, hs2⟩ := hs
      rcases body_cases ic (store c.buf c.bytesleft data) s with
        ⟨he, h0, hb1⟩ | ⟨_, _, hb1⟩ | ⟨he, hb1⟩ | ⟨_, _, hb1⟩ <;>
        rw [hb1] at hb <;> simp at hb <;> subst hb
      · simp only [P, eilseq_calls_append, consumed_append, he, if_true, List.length_append,
          List.length_singleton]
        omega
      · have := h2 he
        simp only [P, eilseq_calls_append, consumed_append, he, List.length_append,
          List.length_singleton]
        simp
        omega
    have hstop : ∀ s s1, P s → body ic (store c.buf c.bytesleft data) s = .stop s1 →
        eilseq_calls s1.log + consumed s1.log + s1.bytesleft = T ∧ s1.log.length ≤ T + 1 := by
      intro s s1 hs hb
      obtain ⟨h1, _⟩ := hcall s
      obtain ⟨hs1, hs2⟩ := hs
      rcases body_cases ic (store c.buf c.bytesleft data) s with
        ⟨he, h0, hb1⟩ | ⟨_, _, hb1⟩ | ⟨he, hb1⟩ | ⟨he, _, hb1⟩ <;>
        rw [hb1] at hb <;> simp at hb
      subst hb
      simp only [eilseq_calls_append, consumed_append, he, if_false, List.length_append,
        List.length_singleton]
      omega
    have h0 : P (loop_entry c data.length) := by
      simp [P, loop_entry, eilseq_calls, consumed, hT]
    have hterm := loop_terminates ic (store c.buf c.bytesleft data) P
      (fun s s1 hs hb => (hstep s s1 hs hb).1) (fun s s1 hs hb => (hstep s s1 hs hb).2)
      fuel _ h0 (by simpa [loop_entry, hT] using hfuel)
    cases hl : loop ic (store c.buf c.bytesleft data) fuel (loop_entry c data.length) with
    | done s =>
      right
      rw [hl] at h3
      refine ⟨_, h3, ?_⟩
      obtain ⟨s1, hs1, hb⟩ := loop_inv ic (store c.buf c.bytesleft data) P
        (fun s s1 hs hb => (hstep s s1 hs hb).1) fuel _ s h0 hl
      have := hstop s1 s hs1 hb
      simp only
      omega
    | assert_failed =>
      left
      rw [hl] at h3
      exact h3
    | out_of_fuel => exact absurd hl hterm

/-! ## A call on a full buffer -/

/-- A call on a full buffer: the read is given no room, so the call returns a
count below 1 and leaves the state as it was. -/
theorem copy_converted_full {σ : Type} (ic : Iconv σ) (fuel : Nat) (from_fd : Source)
    (c : conv σ) (hfull : c.bytesleft = sizeof_buf) :
    ∃ r, copy_converted ic fuel from_fd c = .done r ∧ r.ret < 1 ∧ r.conv = c ∧
      r.written = [] := by
  rcases copy_converted_cases ic fuel from_fd c with ⟨h1, _, h3⟩ | ⟨h1, h2, _⟩
  · exact ⟨_, h3, h1, rfl, rfl⟩
  · have := read_count_eq c.bytesleft (by omega)
    omega

/-! ## The character-by-character converter -/

theorem iconv_loop_inleft_le (next : Codec) :
    ∀ fuel inp adv out room, (iconv_loop next fuel inp adv out room).inleft ≤ inp.length := by
  intro fuel
  induction fuel with
  | zero =>
    intro inp adv out room
    cases inp <;> simp [iconv_loop]
  | succ n ih =>
    intro inp adv out room
    cases inp with
    | nil => simp [iconv_loop]
    | cons b rest =>
      simp only [iconv_loop]
      split
      · simp
      · simp
      · split
        · refine le_trans (ih _ _ _ _) ?_
          simp [List.length_drop]
        · simp

theorem iconv_loop_adv (next : Codec) (hwf : WellFormed next) :
    ∀ fuel inp adv out room,
      (iconv_loop next fuel inp adv out room).adv + (iconv_loop next fuel inp adv out room).inleft
        = adv + inp.length ∧ adv ≤ (iconv_loop next fuel inp adv out room).adv := by
  intro fuel
  induction fuel with
  | zero =>
    intro inp adv out room
    cases inp <;> simp [iconv_loop]
  | succ n ih =>
    intro inp adv out room
    cases inp with
    | nil => simp [iconv_loop]
    | cons b rest =>
      simp only [iconv_loop]
      split
      · simp
      · simp
      · rename_i k o hk
        split
        · have hp := hwf.char_pos _ _ _ hk
          have := ih (List.drop k (b :: rest)) (adv + k) (out ++ o) (room - o.length)
          rw [List.length_drop] at this
          omega
        · simp

theorem iconv_loop_eilseq (next : Codec) :
    ∀ fuel inp adv out room,
      (iconv_loop next fuel inp adv out room).err = some Errno.EILSEQ →
      0 < (iconv_loop next fuel inp adv out room).inleft := by
  intro fuel
  induction fuel with
  | zero =>
    intro inp adv out room
    cases inp <;> simp [iconv_loop]
  | succ n ih =>
    intro inp adv out room
    cases inp with
    | nil => simp [iconv_loop]
    | cons b rest =>
      simp only [iconv_loop]
      split
      · simp
      · simp
      · split
        · exact ih _ _ _ _
        · simp

/-- The converter of a well-formed conversion keeps to the contract that
`copy_converted` relies on. -/
theorem iconv_of_contract (next : Codec) (hwf : WellFormed next) (cd : Unit) (inp : List Nat) :
    (iconv_of next cd inp sizeof_buf).adv + (iconv_of next cd inp sizeof_buf).inleft
      = inp.length ∧
    (iconv_of next cd inp sizeof_buf).inleft ≤ inp.length ∧
    ((iconv_of next cd inp sizeof_buf).err = some Errno.EILSEQ →
      (iconv_of next cd inp sizeof_buf).adv < inp.length) ∧
    ((iconv_of next cd inp sizeof_buf).err = some Errno.E2BIG →
      (iconv_of next cd inp sizeof_buf).inleft < inp.length) := by
  have h1 := (iconv_loop_adv next hwf inp.length inp 0 [] sizeof_buf).1
  have h2 := iconv_loop_inleft_le next inp.length inp 0 [] sizeof_buf
  have h3 := iconv_loop_eilseq next inp.length inp 0 [] sizeof_buf
  unfold iconv_of
  refine ⟨by omega, h2, fun h => by have := h3 h; omega, ?_⟩
  intro hbig
  cases inp with
  | nil => simp [iconv_loop] at hbig
  | cons b rest =>
    simp only [List.length_cons, iconv_loop] at hbig h1 ⊢
    cases hk : next (b :: rest) with
    | invalid => simp [hk] at hbig
    | incomplete => simp [hk] at hbig
    | char k o =>
      have hp := hwf.char_pos _ _ _ hk
      have ho := hwf.out_le _ _ _ hk
      simp only [hk, if_pos ho] at hbig h1 ⊢
      have := (iconv_loop_adv next hwf rest.length (List.drop k (b :: rest)) (0 + k)
        ([] ++ o) (sizeof_buf - o.length)).2
      omega

/-! ## Windows of the buffer -/

theorem window_getElem (buf : Nat → Nat) (off n i : Nat) (h : i < (window buf off n).length) :
    (window buf off n)[i] = buf (off + i) := by
  simp [window]

theorem window_drop (buf : Nat → Nat) (off N n : Nat) :
    (window buf off N).drop n = window buf (off + n) (N - n) := by
  apply List.ext_getElem
  · simp [window_length]
  · intro i h1 h2
    rw [List.getElem_drop, window_getElem, window_getElem]
    congr 1
    omega

theorem window_add (buf : Nat → Nat) (off a b : Nat) :
    window buf off (a + b) = window buf off a ++ window buf (off + a) b := by
  apply List.ext_getElem
  · simp [window_length]
  · intro i h1 h2
    rw [window_getElem]
    by_cases hi : i < a
    · rw [List.getElem_append_left (by simpa [window_length] using hi), window_getElem]
    · rw [List.getElem_append_right (by simpa [window_length] using hi), window_getElem]
      congr 1
      simp [window_length]
      omega

theorem window_store_self (buf : Nat → Nat) (off : Nat) (data : List Nat) :
    window (store buf off data) off data.length = data := by
  apply List.ext_getElem
  · simp [window_length]
  · intro i h1 h2
    rw [window_getElem]
    simp [store, h2, List.getD_eq_getElem?_getD, List.getElem?_eq_getElem h2]

theorem window_store_before (buf : Nat → Nat) (off : Nat) (data : List Nat) (n : Nat)
    (h : n ≤ off) : window (store buf off data) 0 n = window buf 0 n := by
  apply List.ext_getElem
  · simp [window_length]
  · intro i h1 h2
    rw [window_getElem, window_getElem]
    have : i < n := by simpa [window_length] using h1
    simp [store]
    intro h3
    omega

theorem window_memmove (buf : Nat → Nat) (src n : Nat) :
    window (memmove buf 0 src n) 0 n = window buf src n := by
  apply List.ext_getElem
  · simp [window_length]
  · intro i h1 h2
    rw [window_getElem, window_getElem]
    have : i < n := by simpa [window_length] using h1
    simp [memmove, this]

/-! ## Running the loop over validly encoded input -/

theorem loop_succ {σ : Type} (ic : Iconv σ) (buf : Nat → Nat) (f : Nat) (s : LoopState σ) :
    loop ic buf (f + 1) s = resume ic buf f s (iconv_call ic buf s) := by
  simp only [loop, body, resume]

theorem iconv_loop_char (next : Codec) (g b : Nat) (l : List Nat) (adv : Nat) (acc : List Nat)
    (room n : Nat) (o : List Nat) (h : next (b :: l) = .char n o) (hfit : o.length ≤ room) :
    iconv_loop next (g + 1) (b :: l) adv acc room =
      iconv_loop next g ((b :: l).drop n) (adv + n) (acc ++ o) (room - o.length) := by
  simp only [iconv_loop, h, if_pos hfit]

theorem iconv_loop_big (next : Codec) (g b : Nat) (l : List Nat) (adv : Nat) (acc : List Nat)
    (room n : Nat) (o : List Nat) (h : next (b :: l) = .char n o) (hfit : ¬ o.length ≤ room) :
    iconv_loop next (g + 1) (b :: l) adv acc room =
      ⟨some Errno.E2BIG, (), adv, (b :: l).length, acc⟩ := by
  simp only [iconv_loop, h, if_neg hfit]

theorem decode_all_cons (next : Codec) (m b : Nat) (rest o : List Nat)
    (h : decode_all next (m + 1) (b :: rest) = some o) :
    ∃ n o1 o2, next (b :: rest) = .char n o1 ∧
      decode_all next m ((b :: rest).drop n) = some o2 ∧ o = o1 ++ o2 := by
  simp only [decode_all] at h
  cases hk : next (b :: rest) with
  | invalid => simp [hk] at h
  | incomplete => simp [hk] at h
  | char n o1 =>
    simp only [hk, Option.map_eq_some'] at h
    obtain ⟨o2, h1, h2⟩ := h
    exact ⟨n, o1, o2, rfl, h1, h2.symm⟩

/-- The loop over a validly encoded stretch `s` of the input, entered in the
middle of a converter call: after at most one extra pass per character the
converter stands at the end of `s`, and everything `s` converts to has been
written or is in the output buffer. -/
theorem run_valid (next : Codec) (hwf : WellFormed next) (buf : Nat → Nat) :
    ∀ (m : Nat) (s o : List Nat), decode_all next m s = some o →
    ∀ (t : List Nat) (g adv : Nat) (acc : List Nat) (room : Nat) (st : LoopState Unit),
      s.length + t.length ≤ g →
      window buf (st.inptr + adv) (s.length + t.length) = s ++ t →
      ∃ (j : Nat) (st2 : LoopState Unit) (g2 adv2 : Nat) (acc2 : List Nat) (room2 : Nat),
        j ≤ s.length ∧ t.length ≤ g2 ∧
        st2.inptr + adv2 = st.inptr + adv + s.length ∧
        st2.written ++ acc2 = st.written ++ acc ++ o ∧
        eilseq_calls st2.log = eilseq_calls st.log ∧
        ∀ f, resume (iconv_of next) buf (f + j) st (iconv_loop next g (s ++ t) adv acc room) =
          resume (iconv_of next) buf f st2 (iconv_loop next g2 t adv2 acc2 room2) := by
  have hnil : ∀ (o : List Nat) (t : List Nat) (g adv : Nat) (acc : List Nat) (room : Nat)
      (st : LoopState Unit), o = [] → ([] : List Nat).length + t.length ≤ g →
      ∃ (j : Nat) (st2 : LoopState Unit) (g2 adv2 : Nat) (acc2 : List Nat) (room2 : Nat),
        j ≤ ([] : List Nat).length ∧ t.length ≤ g2 ∧
        st2.inptr + adv2 = st.inptr + adv + ([] : List Nat).length ∧
        st2.written ++ acc2 = st.written ++ acc ++ o ∧
        eilseq_calls st2.log = eilseq_calls st.log ∧
        ∀ f, resume (iconv_of next) buf (f + j) st (iconv_loop next g ([] ++ t) adv acc room) =
          resume (iconv_of next) buf f st2 (iconv_loop next g2 t adv2 acc2 room2) := by
    intro o t g adv acc room st ho hg
    refine ⟨0, st, g, adv, acc, room, le_refl _, by simpa using hg, by simp, by simp [ho], rfl,
      fun f => by simp⟩
  intro m
  induction m with
  | zero =>
    intro s o h t g adv acc room st hg _
    cases s with
    | nil => exact hnil o t g adv acc room st (by simpa [decode_all] using h.symm) hg
    | cons b rest => simp [decode_all] at h
  | succ m ih =>
    intro s o h t g adv acc room st hg hw
    cases s with
    | nil => exact hnil o t g adv acc room st (by simpa [decode_all] using h.symm) hg
    | cons b rest =>
      obtain ⟨n, o1, o2, hk, hrest, ho⟩ := decode_all_cons next m b rest o h
      obtain ⟨hn0, hnle⟩ := hwf.char_pos _ _ _ hk
      have hfit0 := hwf.out_le _ _ _ hk
      have hk2 : next (b :: (rest ++ t)) = .char n o1 := by
        have := hwf.char_ext _ _ _ ((b :: rest).drop n ++ t) hk
        rwa [← List.append_assoc, List.take_append_drop] at this
      have hdrop : (b :: (rest ++ t)).drop n = (b :: rest).drop n ++ t := by
        rw [← List.cons_append, List.drop_append_of_le_length hnle]
      have hlen : ((b :: rest).drop n).length = (b :: rest).length - n := List.length_drop _ _
      have hw2 : window buf (st.inptr + adv + n) (((b :: rest).drop n).length + t.length) =
          (b :: rest).drop n ++ t := by
        have := window_drop buf (st.inptr + adv) ((b :: rest).length + t.length) n
        rw [hw, List.drop_append_of_le_length hnle] at this
        rw [this, hlen]
        congr 1
        omega
      obtain ⟨g1, rfl⟩ : ∃ g1, g = g1 + 1 := ⟨g - 1, by simp at hg; omega⟩
      simp only [List.length_cons] at hg hnle hlen
      by_cases hfit : o1.length ≤ room
      · obtain ⟨j, st2, g2, adv2, acc2, room2, hj, hg2, hin, hwr, hlog, hres⟩ :=
          ih ((b :: rest).drop n) o2 hrest t g1 (adv + n) (acc ++ o1) (room - o1.length) st
            (by rw [hlen]; omega) (by rw [← Nat.add_assoc]; exact hw2)
        refine ⟨j, st2, g2, adv2, acc2, room2, ?_, hg2, ?_, ?_, hlog, ?_⟩
        · simp only [List.length_cons]; omega
        · simp only [List.length_cons]; omega
        · rw [hwr, ho]; simp
        · intro f
          rw [List.cons_append, iconv_loop_char next g1 b (rest ++ t) adv acc room n o1 hk2 hfit,
            hdrop]
          exact hres f
      · let st1 : LoopState Unit :=
          ⟨(), st.inptr + adv, (b :: (rest ++ t)).length, st.written ++ acc,
            st.log ++ [⟨st.bytesleft, ⟨some Errno.E2BIG, (), adv, (b :: (rest ++ t)).length, acc⟩⟩]⟩
        obtain ⟨j, st2, g2, adv2, acc2, room2, hj, hg2, hin, hwr, hlog, hres⟩ :=
          ih ((b :: rest).drop n) o2 hrest t (rest.length + t.length) (0 + n) ([] ++ o1)
            (sizeof_buf - o1.length) st1
            (by rw [hlen]; omega)
            (by
              have : st1.inptr + (0 + n) = st.inptr + adv + n := by simp [st1]
              rw [this]; exact hw2)
        refine ⟨j + 1, st2, g2, adv2, acc2, room2, ?_, hg2, ?_, ?_, ?_, ?_⟩
        · simp only [List.length_cons]; omega
        · simp only [List.length_cons]; simp only [st1] at hin; omega
        · rw [hwr, ho]; simp [st1]
        · rw [hlog]; simp [st1, eilseq_calls_append]
        · intro f
          rw [List.cons_append, iconv_loop_big next g1 b (rest ++ t) adv acc room n o1 hk2 hfit]
          have hfin : finish st ⟨some Errno.E2BIG, (), adv, (b :: (rest ++ t)).length, acc⟩ =
              .retry st1 := by
            simp [finish, emit_eq, st1]
          have hcall : iconv_call (iconv_of next) buf st1 =
              iconv_loop next (rest.length + t.length) ((b :: rest).drop n ++ t) (0 + n)
                ([] ++ o1) (sizeof_buf - o1.length) := by
            have hwin : window buf st1.inptr st1.bytesleft = b :: (rest ++ t) := by
              have : st1.bytesleft = (b :: rest).length + t.length := by
                simp [st1]; omega
              rw [this]
              exact hw
            unfold iconv_call iconv_of
            rw [hwin]
            have : (b :: (rest ++ t)).length = (rest.length + t.length) + 1 := by simp
            rw [this, iconv_loop_char next _ b (rest ++ t) 0 [] sizeof_buf n o1 hk2 hfit0, hdrop]
          unfold resume
          rw [hfin]
          simp only
          rw [← Nat.add_assoc, loop_succ, hcall]
          exact hres f

/-- A pass entered on a window `s ++ t` whose stretch `s` is validly encoded. -/
theorem loop_valid (next : Codec) (hwf : WellFormed next) (buf : Nat → Nat)
    (s o t : List Nat) (hs : convert next s = some o) (st : LoopState Unit)
    (hb : st.bytesleft = s.length + t.length)
    (hw : window buf st.inptr st.bytesleft = s ++ t) :
    ∃ (j : Nat) (st2 : LoopState Unit) (g2 adv2 : Nat) (acc2 : List Nat) (room2 : Nat),
      j ≤ s.length ∧ t.length ≤ g2 ∧
      st2.inptr + adv2 = st.inptr + s.length ∧
      st2.written ++ acc2 = st.written ++ o ∧
      eilseq_calls st2.log = eilseq_calls st.log ∧
      ∀ f, loop (iconv_of next) buf (f + j + 1) st =
        resume (iconv_of next) buf f st2 (iconv_loop next g2 t adv2 acc2 room2) := by
  obtain ⟨j, st2, g2, adv2, acc2, room2, hj, hg2, hin, hwr, hlog, hres⟩ :=
    run_valid next hwf buf s.length s o hs t (s.length + t.length) 0 [] sizeof_buf st
      (le_refl _) (by rw [← hb]; exact hw)
  refine ⟨j, st2, g2, adv2, acc2, room2, hj, hg2, by omega, by simpa using hwr, hlog, ?_⟩
  intro f
  rw [loop_succ, ← hres f]
  unfold iconv_call iconv_of
  rw [hw]
  simp

/-- A validly encoded window is converted whole: the loop ends with nothing
left over. -/
theorem loop_valid_all (next : Codec) (hwf : WellFormed next) (buf : Nat → Nat)
    (s o : List Nat) (hs : convert next s = some o) (st : LoopState Unit)
    (hb : st.bytesleft = s.length) (hw : window buf st.inptr st.bytesleft = s) :
    ∃ (j : Nat) (st1 : LoopState Unit), j ≤ s.length ∧
      st1.inptr = st.inptr + s.length ∧ st1.bytesleft = 0 ∧ st1.written = st.written ++ o ∧
      eilseq_calls st1.log = eilseq_calls st.log ∧
      ∀ f, loop (iconv_of next) buf (f + j + 1) st = .done st1 := by
  obtain ⟨j, st2, g2, adv2, acc2, room2, hj, _, hin, hwr, hlog, hres⟩ :=
    loop_valid next hwf buf s o [] hs st (by simpa using hb) (by simpa using hw)
  refine ⟨j, ⟨(), st2.inptr + adv2, 0, st2.written ++ acc2,
    st2.log ++ [⟨st2.bytesleft, ⟨none, (), adv2, 0, acc2⟩⟩]⟩, hj, hin, rfl, hwr, ?_, ?_⟩
  · simp [eilseq_calls_append, hlog]
  · intro f
    rw [hres f]
    cases g2 <;> simp [resume, finish, iconv_loop, emit_eq]

/-- A window made of a validly encoded stretch and an incomplete sequence:
the loop ends with the incomplete sequence left over. -/
theorem loop_valid_incomplete (next : Codec) (hwf : WellFormed next) (buf : Nat → Nat)
    (s o t : List Nat) (hs : convert next s = some o) (ht : t ≠ [])
    (hinc : next t = .incomplete) (st : LoopState Unit)
    (hb : st.bytesleft = s.length + t.length)
    (hw : window buf st.inptr st.bytesleft = s ++ t) :
    ∃ (j : Nat) (st1 : LoopState Unit), j ≤ s.length ∧
      st1.inptr = st.inptr + s.length ∧ st1.bytesleft = t.length ∧
      st1.written = st.written ++ o ∧
      ∀ f, loop (iconv_of next) buf (f + j + 1) st = .done st1 := by
  obtain ⟨j, st2, g2, adv2, acc2, room2, hj, hg2, hin, hwr, hlog, hres⟩ :=
    loop_valid next hwf buf s o t hs st hb hw
  refine ⟨j, ⟨(), st2.inptr + adv2, t.length, st2.written ++ acc2,
    st2.log ++ [⟨st2.bytesleft, ⟨some Errno.EINVAL, (), adv2, t.length, acc2⟩⟩]⟩,
    hj, hin, rfl, hwr, ?_⟩
  intro f
  rw [hres f]
  cases t with
  | nil => exact absurd rfl ht
  | cons b c =>
    obtain ⟨g3, rfl⟩ : ∃ g3, g2 = g3 + 1 := ⟨g2 - 1, by simp at hg2; omega⟩
    simp [resume, finish, iconv_loop, emit_eq, hinc]

/-- A window made of a validly encoded stretch and an invalid sequence: the
stretch is converted, one byte is skipped, and the loop goes on behind it. -/
theorem loop_valid_invalid (next : Codec) (hwf : WellFormed next) (buf : Nat → Nat)
    (s o : List Nat) (b : Nat) (c : List Nat) (hs : convert next s = some o)
    (hinv : next (b :: c) = .invalid) (st : LoopState Unit)
    (hb : st.bytesleft = s.length + (c.length + 1))
    (hw : window buf st.inptr st.bytesleft = s ++ b :: c) :
    ∃ (j : Nat) (st1 : LoopState Unit), j ≤ s.length ∧
      st1.inptr = st.inptr + s.length + 1 ∧ st1.bytesleft = c.length ∧
      st1.written = st.written ++ o ∧
      eilseq_calls st1.log = eilseq_calls st.log + 1 ∧
      ∀ f, loop (iconv_of next) buf (f + j + 1) st = loop (iconv_of next) buf f st1 := by
  obtain ⟨j, st2, g2, adv2, acc2, room2, hj, hg2, hin, hwr, hlog, hres⟩ :=
    loop_valid next hwf buf s o (b :: c) hs st (by simpa using hb) hw
  refine ⟨j, ⟨(), st2.inptr + adv2 + 1, c.length, st2.written ++ acc2,
    st2.log ++ [⟨st2.bytesleft, ⟨some Errno.EILSEQ, (), adv2, c.length + 1, acc2⟩⟩]⟩,
    hj, by simp only; omega, rfl, hwr, ?_, ?_⟩
  · simp [eilseq_calls_append, hlog]
  · intro f
    rw [hres f]
    obtain ⟨g3, rfl⟩ : ∃ g3, g2 = g3 + 1 := ⟨g2 - 1, by simp at hg2; omega⟩
    simp [resume, finish, iconv_loop, emit_eq, hinv]

/-! ## Recovery from an invalid byte (C2) -/

/-- C2: a chunk `a ++ [b] ++ c` of at most 4096 bytes is read by one call from
an empty conversion state, `a` and `c` are validly encoded and the converter
finds an invalid sequence at `b`: the call returns the (positive) number of
bytes read, the bytes written are the conversion of `a` followed by the
conversion of `c`, exactly one byte was skipped after one invalid-sequence
report, and nothing is left over. -/
theorem copy_converted_skips_invalid_byte (next : Codec) (hwf : WellFormed next)
    (a c : List Nat) (b : Nat) (oa oc : List Nat)
    (ha : convert next a = some oa) (hb : next (b :: c) = .invalid)
    (hc : convert next c = some oc) (hlen : (a ++ b :: c).length ≤ sizeof_buf)
    (c0 : conv Unit) (h0 : c0.bytesleft = 0) :
    ∀ fuel, a.length + c.length + 2 ≤ fuel →
      ∃ r, copy_converted (iconv_of next) fuel (.bytes (a ++ b :: c)) c0 = .done r ∧
        r.written = oa ++ oc ∧ r.ret = ((a ++ b :: c).length : Int) ∧ 0 < r.ret ∧
        r.conv.bytesleft = 0 ∧ eilseq_calls r.log = 1 := by
  intro fuel hfuel
  have hd : 1 ≤ (a ++ b :: c).length ∧ (a ++ b :: c).length ≤ sizeof_buf - c0.bytesleft := by
    rw [h0]
    simp at hlen ⊢
    omega
  rw [copy_converted_data (iconv_of next) fuel c0 (a ++ b :: c) (by rw [h0]; omega) hd]
  have hwin : window (store c0.buf c0.bytesleft (a ++ b :: c)) 0 (a ++ b :: c).length
      = a ++ b :: c := by
    have := window_store_self c0.buf c0.bytesleft (a ++ b :: c)
    rwa [h0] at this ⊢
  obtain ⟨j1, st1, hj1, hin1, hbl1, hwr1, hlog1, hrun1⟩ :=
    loop_valid_invalid next hwf (store c0.buf c0.bytesleft (a ++ b :: c)) a oa b c ha hb
      (loop_entry c0 (a ++ b :: c).length) (by simp [loop_entry, h0])
      (by simpa [loop_entry, h0] using hwin)
  simp only [loop_entry, Nat.zero_add, List.nil_append] at hin1 hwr1 hlog1
  have hlog0 : eilseq_calls ([] : List (IconvCall Unit)) = 0 := rfl
  rw [hlog0] at hlog1
  have hwin1 : window (store c0.buf c0.bytesleft (a ++ b :: c)) st1.inptr st1.bytesleft = c := by
    have := window_drop (store c0.buf c0.bytesleft (a ++ b :: c)) 0 (a ++ b :: c).length
      (a.length + 1)
    rw [hwin] at this
    have hdr : (a ++ b :: c).drop (a.length + 1) = c := by
      rw [show a ++ b :: c = (a ++ [b]) ++ c by simp]
      exact List.drop_left' (by simp)
    have e1 : 0 + (a.length + 1) = a.length + 1 := by omega
    have e2 : (a ++ b :: c).length - (a.length + 1) = c.length := by
      simp only [List.length_append, List.length_cons]
      omega
    rw [hdr, e1, e2] at this
    rw [hin1, hbl1]
    exact this.symm
  obtain ⟨j2, st2, hj2, _, hbl2, hwr2, hlog2, hrun2⟩ :=
    loop_valid_all next hwf (store c0.buf c0.bytesleft (a ++ b :: c)) c oc hc st1 hbl1 hwin1
  have hf : fuel = (fuel - (j1 + j2 + 2) + j2 + 1) + j1 + 1 := by omega
  rw [hf, hrun1, hrun2]
  refine ⟨_, rfl, ?_, rfl, ?_, hbl2, ?_⟩
  · simp [hwr2, hwr1]
  · simp only
    omega
  · simp only [hlog2, hlog1]

/-! ## Validly encoded sequences and their splits -/

theorem decode_all_fuel (next : Codec) (hwf : WellFormed next) :
    ∀ m s o, decode_all next m s = some o → ∀ m1, s.length ≤ m1 →
      decode_all next m1 s = some o := by
  intro m
  induction m with
  | zero =>
    intro s o h m1 _
    cases s with
    | nil => cases m1 <;> simpa [decode_all] using h
    | cons b rest => simp [decode_all] at h
  | succ m ih =>
    intro s o h m1 hm1
    cases s with
    | nil => cases m1 <;> simpa [decode_all] using h
    | cons b rest =>
      obtain ⟨n, o1, o2, hk, hrest, ho⟩ := decode_all_cons next m b rest o h
      obtain ⟨hn0, hnle⟩ := hwf.char_pos _ _ _ hk
      obtain ⟨m2, rfl⟩ : ∃ m2, m1 = m2 + 1 := ⟨m1 - 1, by simp at hm1; omega⟩
      have := ih _ _ hrest m2 (by rw [List.length_drop]; simp at hm1 ⊢; omega)
      simp only [decode_all, hk, this, ho, Option.map_some']

theorem convert_nil (next : Codec) : convert next [] = some [] := by
  simp [convert, decode_all]

theorem convert_char (next : Codec) (hwf : WellFormed next) (w : List Nat) (n : Nat)
    (o1 o2 : List Nat) (hk : next w = .char n o1) (hrest : convert next (w.drop n) = some o2) :
    convert next w = some (o1 ++ o2) := by
  obtain ⟨hn0, hnle⟩ := hwf.char_pos _ _ _ hk
  cases w with
  | nil => simp at hnle; omega
  | cons b rest =>
    have := decode_all_fuel next hwf _ _ _ hrest rest.length
      (by rw [List.length_drop]; simp; omega)
    simp only [convert, List.length_cons, decode_all, hk, this, Option.map_some']

theorem convert_char_inv (next : Codec) (hwf : WellFormed next) (w o : List Nat)
    (hne : w ≠ []) (h : convert next w = some o) :
    ∃ n o1 o2, next w = .char n o1 ∧ 0 < n ∧ n ≤ w.length ∧
      convert next (w.drop n) = some o2 ∧ o = o1 ++ o2 := by
  cases w with
  | nil => exact absurd rfl hne
  | cons b rest =>
    obtain ⟨n, o1, o2, hk, hrest, ho⟩ := decode_all_cons next rest.length b rest o h
    obtain ⟨hn0, hnle⟩ := hwf.char_pos _ _ _ hk
    exact ⟨n, o1, o2, hk, hn0, hnle,
      decode_all_fuel next hwf _ _ _ hrest _ (le_refl _), ho⟩

/-- A validly encoded sequence cut at any byte: the first part is a validly
encoded stretch followed by nothing or by an incomplete sequence, and that
remainder followed by the second part is validly encoded again. -/
theorem convert_split (next : Codec) (hwf : WellFormed next) (hsd : SelfDelimiting next) :
    ∀ (N : Nat) (s o : List Nat), s.length ≤ N → convert next s = some o →
    ∀ k, k ≤ s.length →
      ∃ v p ov o2, s.take k = v ++ p ∧ convert next v = some ov ∧
        (p = [] ∨ next p = .incomplete) ∧
        convert next (p ++ s.drop k) = some o2 ∧ o = ov ++ o2 := by
  intro N
  induction N with
  | zero =>
    intro s o hN h k hk
    have hs : s = [] := List.length_eq_zero.mp (by omega)
    subst hs
    exact ⟨[], [], [], o, by simp, convert_nil next, Or.inl rfl, by simpa using h, by simp⟩
  | succ N ih =>
    intro s o hN h k hk
    by_cases hne : s = []
    · subst hne
      exact ⟨[], [], [], o, by simp, convert_nil next, Or.inl rfl, by simpa using h, by simp⟩
    obtain ⟨n, o1, o2, hc, hn0, hnle, hrest, ho⟩ := convert_char_inv next hwf s o hne h
    by_cases hkn : n ≤ k
    · obtain ⟨v, p, ov, o3, htake, hv, hp, hcont, ho2⟩ :=
        ih (s.drop n) o2 (by rw [List.length_drop]; omega) hrest (k - n)
          (by rw [List.length_drop]; omega)
      refine ⟨s.take n ++ v, p, o1 ++ ov, o3, ?_, ?_, hp, ?_, ?_⟩
      · have : k = n + (k - n) := by omega
        rw [this, List.take_add, htake, List.append_assoc]
      · have h1 := hwf.char_ext _ _ _ v hc
        apply convert_char next hwf _ n o1 ov h1
        rw [List.drop_left' (by simp [List.length_take]; omega)]
        exact hv
      · have : s.drop k = (s.drop n).drop (k - n) := by
          rw [List.drop_drop]
          congr 1
          omega
        rw [this]
        exact hcont
      · rw [ho, ho2, List.append_assoc]
    · by_cases hk0 : k = 0
      · subst hk0
        exact ⟨[], [], [], o, by simp, convert_nil next, Or.inl rfl, by simpa using h, by simp⟩
      · refine ⟨[], s.take k, [], o, by simp, convert_nil next, Or.inr ?_, ?_, by simp⟩
        · exact hsd _ _ _ k hc (by omega) (by omega)
        · rw [List.take_append_drop]
          exact h

/-! ## Whole calls on validly encoded input -/

/-- A call that reads `data` behind the residual bytes `p`, where `p ++ data`
is validly encoded: everything is converted and nothing is left over. -/
theorem call_on_valid (next : Codec) (hwf : WellFormed next) (c : conv Unit)
    (p data o2 : List Nat) (hp : window c.buf 0 c.bytesleft = p) (hd1 : 1 ≤ data.length)
    (hfit : c.bytesleft + data.length ≤ sizeof_buf)
    (hconv : convert next (p ++ data) = some o2) :
    ∀ fuel, c.bytesleft + data.length + 1 ≤ fuel →
      ∃ r, copy_converted (iconv_of next) fuel (.bytes data) c = .done r ∧
        r.written = o2 ∧ r.conv.bytesleft = 0 ∧ r.ret = (data.length : Int) ∧
        eilseq_calls r.log = 0 := by
  intro fuel hfuel
  rw [copy_converted_data (iconv_of next) fuel c data (by omega) ⟨hd1, by omega⟩]
  have hpl : p.length = c.bytesleft := by rw [← hp, window_length]
  have hwin : window (store c.buf c.bytesleft data) 0 (c.bytesleft + data.length) = p ++ data := by
    rw [window_add, window_store_before _ _ _ _ (le_refl _), hp, Nat.zero_add, window_store_self]
  obtain ⟨j, st1, hj, _, hbl, hwr, hlog, hrun⟩ :=
    loop_valid_all next hwf (store c.buf c.bytesleft data) (p ++ data) o2 hconv
      (loop_entry c data.length) (by simp [loop_entry, hpl])
      (by simpa [loop_entry] using hwin)
  have hf : fuel = (fuel - (j + 1)) + j + 1 := by
    simp only [List.length_append] at hj
    omega
  rw [hf, hrun]
  refine ⟨_, rfl, by simpa [loop_entry] using hwr, hbl, rfl, ?_⟩
  simp only [hlog]
  rfl

/-- A call from an empty state that reads a validly encoded stretch `v`
followed by an incomplete sequence `p` (or by nothing): the stretch is
converted and `p` is kept at the start of the buffer. -/
theorem call_on_valid_then_incomplete (next : Codec) (hwf : WellFormed next) (c : conv Unit)
    (h0 : c.bytesleft = 0) (v p ov : List Nat) (hv : convert next v = some ov)
    (hp : p = [] ∨ next p = .incomplete) (hd1 : 1 ≤ (v ++ p).length)
    (hfit : (v ++ p).length ≤ sizeof_buf) :
    ∀ fuel, v.length + 1 ≤ fuel →
      ∃ r, copy_converted (iconv_of next) fuel (.bytes (v ++ p)) c = .done r ∧
        r.written = ov ∧ r.conv.bytesleft = p.length ∧
        window r.conv.buf 0 r.conv.bytesleft = p ∧ r.ret = ((v ++ p).length : Int) := by
  intro fuel hfuel
  rw [copy_converted_data (iconv_of next) fuel c (v ++ p) (by omega) ⟨hd1, by omega⟩]
  have hwin : window (store c.buf c.bytesleft (v ++ p)) 0 (v ++ p).length = v ++ p := by
    have := window_store_self c.buf c.bytesleft (v ++ p)
    rwa [h0] at this ⊢
  by_cases hpe : p = []
  · subst hpe
    obtain ⟨j, st1, hj, _, hbl, hwr, _, hrun⟩ :=
      loop_valid_all next hwf (store c.buf c.bytesleft (v ++ [])) v ov hv
        (loop_entry c (v ++ []).length) (by simp [loop_entry, h0])
        (by simpa [loop_entry, h0] using hwin)
    have hf : fuel = (fuel - (j + 1)) + j + 1 := by omega
    rw [hf, hrun]
    refine ⟨_, rfl, by simpa [loop_entry] using hwr, by simpa using hbl, ?_, rfl⟩
    simp [hbl, window]
  · have hinc : next p = .incomplete := by
      rcases hp with h | h
      · exact absurd h hpe
      · exact h
    obtain ⟨j, st1, hj, hin, hbl, hwr, hrun⟩ :=
      loop_valid_incomplete next hwf (store c.buf c.bytesleft (v ++ p)) v ov p hv hpe hinc
        (loop_entry c (v ++ p).length) (by simp [loop_entry, h0])
        (by simpa [loop_entry, h0] using hwin)
    have hf : fuel = (fuel - (j + 1)) + j + 1 := by omega
    rw [hf, hrun]
    have hpos : 0 < st1.bytesleft := by
      rw [hbl]
      exact List.length_pos.mpr hpe
    refine ⟨_, rfl, by simpa [loop_entry] using hwr, hbl, ?_, rfl⟩
    simp only [hpos, if_true]
    rw [window_memmove, hin, hbl]
    have := window_drop (store c.buf c.bytesleft (v ++ p)) 0 (v ++ p).length v.length
    have e1 : (v ++ p).length - v.length = p.length := by simp
    rw [hwin, List.drop_left, e1, Nat.zero_add] at this
    simp only [loop_entry, Nat.zero_add]
    exact this.symm

/-! ## Split chunks (C1) -/

/-- C1: for a validly encoded byte sequence `s` of at most 4096 bytes and a
cut `0 < k < |s|`, from an empty conversion state the call that reads `s`
whole, and the two successive calls that read the first `k` bytes and the
remaining ones, all return, write the same bytes (the conversion of `s`), and
both runs end with `bytesleft = 0`. -/
theorem copy_converted_split_chunk (next : Codec) (hwf : WellFormed next)
    (hsd : SelfDelimiting next) (s o : List Nat) (hs : convert next s = some o)
    (hlen : s.length ≤ sizeof_buf) (k : Nat) (hk : 0 < k ∧ k < s.length)
    (c0 : conv Unit) (h0 : c0.bytesleft = 0) :
    ∀ fuel, s.length + 1 ≤ fuel →
      ∃ r r1 r2,
        copy_converted (iconv_of next) fuel (.bytes s) c0 = .done r ∧
        copy_converted (iconv_of next) fuel (.bytes (s.take k)) c0 = .done r1 ∧
        copy_converted (iconv_of next) fuel (.bytes (s.drop k)) r1.conv = .done r2 ∧
        r.written = o ∧ r1.written ++ r2.written = r.written ∧
        r.conv.bytesleft = 0 ∧ r2.conv.bytesleft = 0 ∧
        r.ret = (s.length : Int) ∧ r1.ret = (k : Int) ∧ r2.ret = ((s.length - k : Nat) : Int) := by
  intro fuel hfuel
  have hw0 : window c0.buf 0 c0.bytesleft = [] := by simp [h0, window]
  obtain ⟨r, hr, hrw, hrb, hrr, _⟩ :=
    call_on_valid next hwf c0 [] s o hw0 (by omega) (by omega) (by simpa using hs) fuel
      (by omega)
  obtain ⟨v, p, ov, o2, htake, hv, hp, hcont, ho⟩ :=
    convert_split next hwf hsd s.length s o (le_refl _) hs k (by omega)
  have hlt : (s.take k).length = k := by rw [List.length_take]; omega
  have hvp : (v ++ p).length = k := by rw [← htake, hlt]
  obtain ⟨r1, hr1, hr1w, hr1b, hr1win, hr1r⟩ :=
    call_on_valid_then_incomplete next hwf c0 h0 v p ov hv hp (by omega) (by omega) fuel
      (by simp only [List.length_append] at hvp; omega)
  have hld : (s.drop k).length = s.length - k := List.length_drop _ _
  obtain ⟨r2, hr2, hr2w, hr2b, hr2r, _⟩ :=
    call_on_valid next hwf r1.conv p (s.drop k) o2 hr1win (by omega)
      (by simp only [List.length_append] at hvp; omega) hcont fuel
      (by simp only [List.length_append] at hvp; omega)
  refine ⟨r, r1, r2, hr, ?_, hr2, hrw, ?_, hrb, hr2b, hrr, ?_, ?_⟩
  · rw [htake]; exact hr1
  · rw [hr1w, hr2w, hrw, ho]
  · rw [hr1r, hvp]
  · rw [hr2r, hld]

/-! ## The two conversions of a UTF-8 terminal -/

theorem to_cp437_char (k cp n : Nat) (o : List Nat) (h : to_cp437 k cp = .char n o) :
    n = k ∧ o.length = 1 := by
  unfold to_cp437 at h
  split at h
  · simp at h
    obtain ⟨rfl, rfl⟩ := h
    simp
  · simp at h

theorem utf8_to_cp437_wf : WellFormed utf8_to_cp437 := by
  have key : ∀ w n o, utf8_to_cp437 w = .char n o →
      0 < n ∧ n ≤ w.length ∧ o.length = 1 ∧ ∀ t, utf8_to_cp437 (w.take n ++ t) = .char n o := by
    intro w n o h
    rcases w with _ | ⟨b, _ | ⟨c1, _ | ⟨c2, _ | ⟨c3, rest⟩⟩⟩⟩ <;>
      simp only [utf8_to_cp437] at h <;>
      (repeat' split at h) <;>
      (try (exact absurd h (by simp))) <;>
      (have hh := to_cp437_char _ _ _ _ h) <;>
      obtain ⟨rfl, ho⟩ := hh <;>
      simp_all [utf8_to_cp437] <;>
      (repeat' split) <;>
      first | omega | exact rfl
  exact ⟨fun w n o h => ⟨(key w n o h).1, (key w n o h).2.1⟩,
    fun w n o t h => (key w n o h).2.2.2 t,
    fun w n o h => by have := (key w n o h).2.2.1; unfold sizeof_buf; omega⟩

theorem utf8_to_cp437_sd : SelfDelimiting utf8_to_cp437 := by
  intro w n o k h hk0 hkn
  rcases w with _ | ⟨b, _ | ⟨c1, _ | ⟨c2, _ | ⟨c3, rest⟩⟩⟩⟩ <;>
    simp only [utf8_to_cp437] at h <;>
    (repeat' split at h) <;>
    (try (exact absurd h (by simp))) <;>
    (have hh := to_cp437_char _ _ _ _ h) <;>
    obtain ⟨rfl, ho⟩ := hh <;>
    interval_cases k <;>
    simp_all [utf8_to_cp437] <;>
    (repeat' split) <;>
    first | omega | exact rfl

theorem cp437_to_utf8_wf : WellFormed cp437_to_utf8 := by
  have key : ∀ w n o, cp437_to_utf8 w = .char n o →
      n = 1 ∧ 1 ≤ w.length ∧ o.length ≤ 4 ∧ ∀ t, cp437_to_utf8 (w.take n ++ t) = .char n o := by
    intro w n o h
    cases w with
    | nil => simp [cp437_to_utf8] at h
    | cons b rest =>
      simp only [cp437_to_utf8] at h
      split at h
      · simp at h
        obtain ⟨rfl, rfl⟩ := h
        refine ⟨rfl, by simp, ?_, ?_⟩
        · unfold utf8_encode
          repeat' split
          all_goals simp
        · intro t
          simp [cp437_to_utf8, *]
      · simp at h
  exact ⟨fun w n o h => by have := key w n o h; omega,
    fun w n o t h => (key w n o h).2.2.2 t,
    fun w n o h => by have := (key w n o h).2.2.1; unfold sizeof_buf; omega⟩

theorem utf8_to_cp437_ascii : AsciiTransparent utf8_to_cp437 := by
  intro b t h1 h2
  have : b < 0x80 := by omega
  simp [utf8_to_cp437, to_cp437, ucs_to_cp437, this]

theorem cp437_to_utf8_ascii : AsciiTransparent cp437_to_utf8 := by
  intro b t h1 h2
  have : b < 0x80 := by omega
  have h3 : b < 0x100 := by omega
  simp [cp437_to_utf8, cp437_to_ucs, utf8_encode, this, h3]

/-! ## ASCII round trip (C5) -/

theorem convert_ascii (next : Codec) (hwf : WellFormed next) (ha : AsciiTransparent next) :
    ∀ s : List Nat, (∀ b ∈ s, 0x20 ≤ b ∧ b ≤ 0x7E) → convert next s = some s := by
  intro s
  induction s with
  | nil => intro _; exact convert_nil next
  | cons b rest ih =>
    intro hs
    have hb := hs b (List.mem_cons_self _ _)
    have hrest := ih (fun x hx => hs x (List.mem_cons_of_mem _ hx))
    have := convert_char next hwf (b :: rest) 1 [b] rest (ha b rest hb.1 hb.2)
      (by simpa using hrest)
    simpa using this

/-- A call from an empty state on a sequence of printable 7-bit bytes writes
the sequence unchanged and leaves nothing over. -/
theorem call_on_ascii (next : Codec) (hwf : WellFormed next) (ha : AsciiTransparent next)
    (s : List Nat) (hs : ∀ b ∈ s, 0x20 ≤ b ∧ b ≤ 0x7E) (hlen : s.length ≤ sizeof_buf)
    (c : conv Unit) (h0 : c.bytesleft = 0) :
    ∀ fuel, s.length + 1 ≤ fuel →
      ∃ r, copy_converted (iconv_of next) fuel (.bytes s) c = .done r ∧ r.written = s ∧
        r.conv.bytesleft = 0 ∧ r.ret = (s.length : Int) := by
  intro fuel hfuel
  by_cases hne : s = []
  · subst hne
    refine ⟨⟨0, c, [], []⟩, ?_, rfl, h0, rfl⟩
    simp [copy_converted, read]
  · have hpos : 1 ≤ s.length := List.length_pos.mpr hne
    obtain ⟨r, hr, hw, hb, hret, _⟩ :=
      call_on_valid next hwf c [] s s (by simp [h0, window]) hpos (by omega)
        (by simpa using convert_ascii next hwf ha s hs) fuel (by omega)
    exact ⟨r, hr, hw, hb, hret⟩

/-- C5: a sequence of printable 7-bit bytes (0x20..0x7E) of at most 4096 bytes
is passed through `copy_converted` towards the child, and the bytes written
are passed through `copy_converted` towards the terminal, both from empty
conversion states and with conversions that leave those bytes unchanged: both
calls return, the second writes exactly the original sequence, and no
residual bytes are left in either direction. -/
theorem ascii_round_trip (to_c from_c : Codec) (hwt : WellFormed to_c)
    (hwf : WellFormed from_c) (hat : AsciiTransparent to_c) (haf : AsciiTransparent from_c)
    (s : List Nat) (hs : ∀ b ∈ s, 0x20 ≤ b ∧ b ≤ 0x7E) (hlen : s.length ≤ sizeof_buf)
    (c1 c2 : conv Unit) (h1 : c1.bytesleft = 0) (h2 : c2.bytesleft = 0) :
    ∀ fuel, s.length + 1 ≤ fuel →
      ∃ r1 r2, copy_converted (iconv_of to_c) fuel (.bytes s) c1 = .done r1 ∧
        copy_converted (iconv_of from_c) fuel (.bytes r1.written) c2 = .done r2 ∧
        r1.written = s ∧ r2.written = s ∧
        r1.conv.bytesleft = 0 ∧ r2.conv.bytesleft = 0 := by
  intro fuel hfuel
  obtain ⟨r1, hr1, hw1, hb1, _⟩ := call_on_ascii to_c hwt hat s hs hlen c1 h1 fuel hfuel
  obtain ⟨r2, hr2, hw2, hb2, _⟩ := call_on_ascii from_c hwf haf s hs hlen c2 h2 fuel hfuel
  exact ⟨r1, r2, hr1, by rw [hw1]; exact hr2, hw1, hw2, hb1, hb2⟩

/-- Witness for C5: the bytes of `Hi!` through both conversions of a UTF-8
terminal. -/
theorem ascii_round_trip_witness :
    (∀ b ∈ [0x48, 0x69, 0x21], 0x20 ≤ b ∧ b ≤ 0x7E) ∧
    ∃ r1 r2, copy_converted (iconv_of utf8_to_cp437) 4 (.bytes [0x48, 0x69, 0x21]) fresh_conv
        = .done r1 ∧
      copy_converted (iconv_of cp437_to_utf8) 4 (.bytes r1.written) fresh_conv = .done r2 ∧
      r1.written = [0x48, 0x69, 0x21] ∧ r2.written = [0x48, 0x69, 0x21] ∧
      r1.conv.bytesleft = 0 ∧ r2.conv.bytesleft = 0 :=
  ⟨by decide,
   ascii_round_trip utf8_to_cp437 cp437_to_utf8 utf8_to_cp437_wf cp437_to_utf8_wf
    utf8_to_cp437_ascii cp437_to_utf8_ascii [0x48, 0x69, 0x21] (by decide) (by decide)
    fresh_conv fresh_conv rfl rfl 4 (by decide)⟩

/-! ## The residual count (C8) -/

theorem sizeof_buf_pos : 0 < sizeof_buf := by
  unfold sizeof_buf
  omega

/-- A converter call that does not ask for a retry leaves fewer bytes than the
buffer holds: none after a success, an incomplete sequence otherwise. -/
theorem iconv_loop_stop (next : Codec) (hwf : WellFormed next) (hinc : ShortIncomplete next) :
    ∀ fuel inp adv out room, inp.length ≤ fuel →
      (iconv_loop next fuel inp adv out room).err = some Errno.EILSEQ ∨
      (iconv_loop next fuel inp adv out room).err = some Errno.E2BIG ∨
      (iconv_loop next fuel inp adv out room).inleft < sizeof_buf := by
  intro fuel
  induction fuel with
  | zero =>
    intro inp adv out room hlen
    have : inp = [] := List.length_eq_zero.mp (by omega)
    subst this
    right; right
    simpa [iconv_loop] using sizeof_buf_pos
  | succ n ih =>
    intro inp adv out room hlen
    cases inp with
    | nil =>
      right; right
      simpa [iconv_loop] using sizeof_buf_pos
    | cons b rest =>
      simp only [iconv_loop]
      cases hk : next (b :: rest) with
      | invalid => left; rfl
      | incomplete =>
        right; right
        exact hinc _ hk
      | char k o =>
        simp only
        split
        · have hp := hwf.char_pos _ _ _ hk
          apply ih
          rw [List.length_drop]
          simp only [List.length_cons] at hlen hp ⊢
          omega
        · right; left; rfl

/-- One pass of the loop over a well-formed conversion: a retry shortens the
input, the assertion holds, and a stop leaves fewer bytes than the buffer
holds when incomplete sequences are short. -/
theorem body_of_codec (next : Codec) (hwf : WellFormed next) (buf : Nat → Nat)
    (s : LoopState Unit) :
    (∀ s1, body (iconv_of next) buf s = .retry s1 → s1.bytesleft < s.bytesleft) ∧
    body (iconv_of next) buf s ≠ .abort ∧
    (ShortIncomplete next →
      ∀ s1, body (iconv_of next) buf s = .stop s1 → s1.bytesleft < sizeof_buf) := by
  obtain ⟨h1, h2, h3, h4⟩ :=
    iconv_of_contract next hwf s.cd (window buf s.inptr s.bytesleft)
  rw [window_length] at h1 h2 h3 h4
  change (iconv_call (iconv_of next) buf s).adv + (iconv_call (iconv_of next) buf s).inleft
    = s.bytesleft at h1
  change (iconv_call (iconv_of next) buf s).inleft ≤ s.bytesleft at h2
  change (iconv_call (iconv_of next) buf s).err = some Errno.EILSEQ →
    (iconv_call (iconv_of next) buf s).adv < s.bytesleft at h3
  change (iconv_call (iconv_of next) buf s).err = some Errno.E2BIG →
    (iconv_call (iconv_of next) buf s).inleft < s.bytesleft at h4
  refine ⟨?_, ?_, ?_⟩
  · intro s1 hb
    rcases body_cases (iconv_of next) buf s with
      ⟨_, h0, hb1⟩ | ⟨_, _, hb1⟩ | ⟨he, hb1⟩ | ⟨_, _, hb1⟩ <;>
      rw [hb1] at hb <;> simp at hb <;> subst hb <;> simp only
    · omega
    · exact h4 he
  · intro hb
    rcases body_cases (iconv_of next) buf s with
      ⟨_, _, hb1⟩ | ⟨he, hz, _⟩ | ⟨_, hb1⟩ | ⟨_, _, hb1⟩
    · rw [hb1] at hb; simp at hb
    · have := h3 he
      omega
    · rw [hb1] at hb; simp at hb
    · rw [hb1] at hb; simp at hb
  · intro hinc s1 hb
    have hstop := iconv_loop_stop next hwf hinc (window buf s.inptr s.bytesleft).length
      (window buf s.inptr s.bytesleft) 0 [] sizeof_buf (le_refl _)
    change (iconv_call (iconv_of next) buf s).err = some Errno.EILSEQ ∨
      (iconv_call (iconv_of next) buf s).err = some Errno.E2BIG ∨
      (iconv_call (iconv_of next) buf s).inleft < sizeof_buf at hstop
    rcases body_cases (iconv_of next) buf s with
      ⟨_, _, hb1⟩ | ⟨_, _, hb1⟩ | ⟨_, hb1⟩ | ⟨hne1, hne2, hb1⟩ <;>
      rw [hb1] at hb <;> simp at hb
    subst hb
    rcases hstop with h | h | h
    · exact absurd h hne1
    · exact absurd h hne2
    · exact h

theorem utf8_to_cp437_short : ShortIncomplete utf8_to_cp437 := by
  intro w h
  have : w.length ≤ 3 := by
    rcases w with _ | ⟨b, _ | ⟨c1, _ | ⟨c2, _ | ⟨c3, rest⟩⟩⟩⟩ <;>
      simp only [utf8_to_cp437] at h <;>
      (try simp) <;>
      (repeat' split at h) <;>
      first
        | exact absurd h (by simp)
        | (unfold to_cp437 at h
           split at h
           all_goals exact absurd h (by simp))
  unfold sizeof_buf
  omega

theorem cp437_to_utf8_short : ShortIncomplete cp437_to_utf8 := by
  intro w h
  cases w with
  | nil => exact sizeof_buf_pos
  | cons b rest =>
    simp only [cp437_to_utf8] at h
    split at h <;> simp at h

/-- C8: for a conversion following iconv(3) whose incomplete sequences are
shorter than the buffer (as for both converters `main` opens), every call of
`copy_converted` on a state with `bytesleft < 4096`, whatever the read
returns, leaves `bytesleft < 4096` when it returns, and it does return once
the step budget exceeds the bytes held after the read.  On a full buffer the
call returns a count below 1 with the state unchanged, whatever the source
offers, and the event loop is left. -/
theorem copy_converted_residual_bound (next : Codec) (hwf : WellFormed next)
    (hinc : ShortIncomplete next) (c : conv Unit) (from_fd : Source) :
    (c.bytesleft < sizeof_buf →
      (∀ fuel r, copy_converted (iconv_of next) fuel from_fd c = .done r →
        r.conv.bytesleft < sizeof_buf) ∧
      (∀ fuel, held_after_read from_fd c < fuel →
        ∃ r, copy_converted (iconv_of next) fuel from_fd c = .done r ∧
          r.conv.bytesleft < sizeof_buf)) ∧
    (c.bytesleft = sizeof_buf →
      ∀ fuel, ∃ r, copy_converted (iconv_of next) fuel from_fd c = .done r ∧
        r.ret < 1 ∧ r.conv = c) ∧
    (∀ (τ : Type) (E : Env Unit τ) (fuel : Nat) (rd : Round) (s : Session Unit τ) (m w : Bool),
      s.to_child.bytesleft = sizeof_buf → rd.select = .ready true m w →
      ∃ s1, iteration E fuel rd s = .done (s1, true)) ∧
    (∀ (τ : Type) (E : Env τ Unit) (fuel : Nat) (rd : Round) (s : Session τ Unit) (w : Bool),
      s.from_child.bytesleft = sizeof_buf → rd.select = .ready false true w →
      ∃ s1, iteration E fuel rd s = .done (s1, true)) := by
  have hsafe : ∀ fuel r, c.bytesleft < sizeof_buf →
      copy_converted (iconv_of next) fuel from_fd c = .done r →
      r.conv.bytesleft < sizeof_buf := by
    intro fuel r hc h
    rcases copy_converted_cases (iconv_of next) fuel from_fd c with ⟨_, _, h3⟩ | ⟨_, _, h3⟩
    · rw [h3] at h
      simp at h
      subst h
      exact hc
    · generalize (read from_fd (read_count c.bytesleft)).2 = data at *
      cases hl : loop (iconv_of next) (store c.buf c.bytesleft data) fuel
          (loop_entry c data.length) with
      | done s =>
        rw [hl] at h3
        rw [h3] at h
        simp at h
        subst h
        obtain ⟨s1, _, hb⟩ := loop_inv (iconv_of next) (store c.buf c.bytesleft data)
          (fun _ => True) (fun _ _ _ _ => trivial) fuel _ s trivial hl
        exact (body_of_codec next hwf (store c.buf c.bytesleft data) s1).2.2 hinc s hb
      | assert_failed => rw [hl] at h3; rw [h3] at h; simp at h
      | out_of_fuel => rw [hl] at h3; rw [h3] at h; simp at h
  refine ⟨?_, ?_, ?_, ?_⟩
  · intro hc
    refine ⟨fun fuel r h => hsafe fuel r hc h, ?_⟩
    intro fuel hfuel
    rcases copy_converted_cases (iconv_of next) fuel from_fd c with ⟨_, _, h3⟩ | ⟨_, _, h3⟩
    · exact ⟨_, h3, hc⟩
    · have hB : held_after_read from_fd c =
          c.bytesleft + (read from_fd (read_count c.bytesleft)).2.length := rfl
      rw [hB] at hfuel
      generalize (read from_fd (read_count c.bytesleft)).2 = data at *
      have hterm := loop_terminates (iconv_of next) (store c.buf c.bytesleft data)
        (fun _ => True) (fun _ _ _ _ => trivial)
        (fun s s1 _ hb => (body_of_codec next hwf (store c.buf c.bytesleft data) s).1 s1 hb)
        fuel (loop_entry c data.length) trivial (by simpa [loop_entry] using hfuel)
      have hna := loop_no_abort (iconv_of next) (store c.buf c.bytesleft data)
        (fun _ => True) (fun _ _ _ _ => trivial)
        (fun s _ => (body_of_codec next hwf (store c.buf c.bytesleft data) s).2.1)
        fuel (loop_entry c data.length) trivial
      cases hl : loop (iconv_of next) (store c.buf c.bytesleft data) fuel
          (loop_entry c data.length) with
      | done s =>
        rw [hl] at h3
        exact ⟨_, h3, hsafe fuel _ hc h3⟩
      | assert_failed => exact absurd hl hna
      | out_of_fuel => exact absurd hl hterm
  · intro hfull fuel
    obtain ⟨r, h1, h2, h3, _⟩ := copy_converted_full (iconv_of next) fuel from_fd c hfull
    exact ⟨r, h1, h2, h3⟩
  · intro τ E fuel rd s m w hfull hsel
    obtain ⟨r, h1, h2, _, _⟩ := copy_converted_full E.ic_to fuel rd.stdin s.to_child hfull
    unfold iteration
    simp only [hsel, if_true]
    rw [h1]
    simp [h2]
  · intro τ E fuel rd s w hfull hsel
    obtain ⟨r, h1, h2, _, _⟩ := copy_converted_full E.ic_from fuel rd.master s.from_child hfull
    unfold iteration serve_master
    simp only [hsel, if_true]
    simp
    rw [h1]
    simp [h2]

/-- Witness for C8: a read that fills the empty buffer with 4096 bytes 0xE2,
through each of the two conversions of a UTF-8 terminal. -/
theorem copy_converted_residual_bound_witness :
    fresh_conv.bytesleft < sizeof_buf ∧
    ((∀ fuel r, copy_converted (iconv_of utf8_to_cp437) fuel
        (.bytes (List.replicate 4096 0xE2)) fresh_conv = .done r →
      r.conv.bytesleft < sizeof_buf) ∧
    (∀ fuel, held_after_read (.bytes (List.replicate 4096 0xE2)) fresh_conv < fuel →
      ∃ r, copy_converted (iconv_of utf8_to_cp437) fuel
          (.bytes (List.replicate 4096 0xE2)) fresh_conv = .done r ∧
        r.conv.bytesleft < sizeof_buf)) ∧
    ((∀ fuel r, copy_converted (iconv_of cp437_to_utf8) fuel
        (.bytes (List.replicate 4096 0xE2)) fresh_conv = .done r →
      r.conv.bytesleft < sizeof_buf) ∧
    (∀ fuel, held_after_read (.bytes (List.replicate 4096 0xE2)) fresh_conv < fuel →
      ∃ r, copy_converted (iconv_of cp437_to_utf8) fuel
          (.bytes (List.replicate 4096 0xE2)) fresh_conv = .done r ∧
        r.conv.bytesleft < sizeof_buf)) :=
  ⟨by decide,
   (copy_converted_residual_bound utf8_to_cp437 utf8_to_cp437_wf utf8_to_cp437_short
    fresh_conv (.bytes (List.replicate 4096 0xE2))).1 (by decide),
   (copy_converted_residual_bound cp437_to_utf8 cp437_to_utf8_wf cp437_to_utf8_short
    fresh_conv (.bytes (List.replicate 4096 0xE2))).1 (by decide)⟩

/-! ## Witnesses on the conversions of a UTF-8 terminal -/

/-- Witness for C1: the three bytes of U+2591 followed by `A`, cut after the
first byte. -/
theorem copy_converted_split_chunk_witness :
    convert utf8_to_cp437 [0xE2, 0x96, 0x91, 0x41] = some [0xB0, 0x41] ∧
    ∃ r r1 r2,
      copy_converted (iconv_of utf8_to_cp437) 5 (.bytes [0xE2, 0x96, 0x91, 0x41]) fresh_conv
        = .done r ∧
      copy_converted (iconv_of utf8_to_cp437) 5
        (.bytes (List.take 1 [0xE2, 0x96, 0x91, 0x41])) fresh_conv = .done r1 ∧
      copy_converted (iconv_of utf8_to_cp437) 5
        (.bytes (List.drop 1 [0xE2, 0x96, 0x91, 0x41])) r1.conv = .done r2 ∧
      r.written = [0xB0, 0x41] ∧ r1.written ++ r2.written = r.written ∧
      r.conv.bytesleft = 0 ∧ r2.conv.bytesleft = 0 ∧
      r.ret = (([0xE2, 0x96, 0x91, 0x41] : List Nat).length : Int) ∧ r1.ret = ((1 : Nat) : Int) ∧
      r2.ret = ((([0xE2, 0x96, 0x91, 0x41] : List Nat).length - 1 : Nat) : Int) :=
  ⟨by decide,
   copy_converted_split_chunk utf8_to_cp437 utf8_to_cp437_wf utf8_to_cp437_sd
    [0xE2, 0x96, 0x91, 0x41] [0xB0, 0x41] (by decide) (by decide) 1 (by decide)
    fresh_conv rfl 5 (by decide)⟩

/-- Witness for C2: `A`, the invalid byte 0xFF, and the two bytes of U+00E9. -/
theorem copy_converted_skips_invalid_byte_witness :
    utf8_to_cp437 (0xFF :: [0xC3, 0xA9]) = .invalid ∧
    ∃ r, copy_converted (iconv_of utf8_to_cp437) 5 (.bytes ([0x41] ++ 0xFF :: [0xC3, 0xA9]))
        fresh_conv = .done r ∧
      r.written = [0x41] ++ [0x82] ∧
      r.ret = ((([0x41] ++ 0xFF :: [0xC3, 0xA9] : List Nat)).length : Int) ∧ 0 < r.ret ∧
      r.conv.bytesleft = 0 ∧ eilseq_calls r.log = 1 :=
  ⟨by decide,
   copy_converted_skips_invalid_byte utf8_to_cp437 utf8_to_cp437_wf [0x41] [0xC3, 0xA9] 0xFF
    [0x41] [0x82] (by decide) (by decide) (by decide) (by decide) fresh_conv rfl 5
    (by decide)⟩

/-- Witness for C10: four bytes read into an empty state, converted from UTF-8. -/
theorem copy_converted_buffer_bounds_witness :
    (∀ n s, iterates (iconv_of utf8_to_cp437)
        (store fresh_conv.buf fresh_conv.bytesleft [0x41, 0xFF, 0xC3, 0xA9]) n
        (loop_entry fresh_conv ([0x41, 0xFF, 0xC3, 0xA9] : List Nat).length) = some s →
      s.inptr + s.bytesleft
          = fresh_conv.bytesleft + ([0x41, 0xFF, 0xC3, 0xA9] : List Nat).length ∧
        s.inptr + s.bytesleft ≤ sizeof_buf) ∧
    (∀ fuel, copy_converted (iconv_of utf8_to_cp437) fuel (.bytes [0x41, 0xFF, 0xC3, 0xA9])
      fresh_conv ≠ .assert_failed) :=
  have h := copy_converted_buffer_bounds (iconv_of utf8_to_cp437) fresh_conv
    [0x41, 0xFF, 0xC3, 0xA9] (by decide) (by decide)
    (fun cd inp => (iconv_of_contract utf8_to_cp437 utf8_to_cp437_wf cd inp).1)
  ⟨h.1, h.2.2 (fun cd inp => (iconv_of_contract utf8_to_cp437 utf8_to_cp437_wf cd inp).2.2.1)⟩

/-- Witness for C9: four bytes, one of them invalid, read into an empty state. -/
theorem copy_converted_bounded_retries_witness :
    copy_converted (iconv_of utf8_to_cp437) 5 (.bytes [0x41, 0xFF, 0xC3, 0xA9]) fresh_conv
        = .assert_failed ∨
    ∃ r, copy_converted (iconv_of utf8_to_cp437) 5 (.bytes [0x41, 0xFF, 0xC3, 0xA9]) fresh_conv
        = .done r ∧
      eilseq_calls r.log + consumed r.log + r.conv.bytesleft
        = held_after_read (.bytes [0x41, 0xFF, 0xC3, 0xA9]) fresh_conv ∧
      eilseq_calls r.log ≤ held_after_read (.bytes [0x41, 0xFF, 0xC3, 0xA9]) fresh_conv ∧
      r.log.length ≤ held_after_read (.bytes [0x41, 0xFF, 0xC3, 0xA9]) fresh_conv + 1 :=
  (copy_converted_bounded_retries (iconv_of utf8_to_cp437) fresh_conv
    (.bytes [0x41, 0xFF, 0xC3, 0xA9])
    (fun cd inp => (iconv_of_contract utf8_to_cp437 utf8_to_cp437_wf cd inp).2.1)
    (fun cd inp => (iconv_of_contract utf8_to_cp437 utf8_to_cp437_wf cd inp).2.2.2)).2 5
    (by decide)

/-! ## The block-shading scenario (C7) -/

/-- Counterexample for C7: on a UTF-8 terminal the bytes 0xB0 0xB1 0xB2 sent
towards the child are three invalid sequences; each is skipped, the child
receives nothing, and the terminal is sent nothing, whatever the step budget. -/
theorem echo_legacy_bytes_dropped :
    echo_round 4096 [0xB0, 0xB1, 0xB2] = some ([], []) ∧
    ¬ ∃ fuel child, echo_round fuel [0xB0, 0xB1, 0xB2] =
      some (child, [0xE2, 0x96, 0x91, 0xE2, 0x96, 0x92, 0xE2, 0x96, 0x93]) := by
  refine ⟨by decide, ?_⟩
  rintro ⟨fuel, child, h⟩
  have h0 : echo_round 0 [0xB0, 0xB1, 0xB2] = none := by decide
  have h1 : echo_round 1 [0xB0, 0xB1, 0xB2] = none := by decide
  have h2 : echo_round 2 [0xB0, 0xB1, 0xB2] = none := by decide
  have h3 : echo_round 3 [0xB0, 0xB1, 0xB2] = none := by decide
  have h4 : ∀ f, echo_round (f + 4) [0xB0, 0xB1, 0xB2] = some ([], []) := fun _ => rfl
  rcases fuel with _ | _ | _ | _ | f
  · rw [h0] at h; simp at h
  · rw [h1] at h; simp at h
  · rw [h2] at h; simp at h
  · rw [h3] at h; simp at h
  · rw [h4 f] at h; simp at h

/-- C7 (amended): on a UTF-8 terminal the UTF-8 bytes of U+2591, U+2592 and
U+2593 sent towards the child reach it as the CP437 bytes 0xB0 0xB1 0xB2, and
those bytes, echoed and read back from the pty master, are written to the
terminal as E2 96 91, E2 96 92, E2 96 93. -/
theorem echo_block_shading (f : Nat) :
    echo_round (f + 1) [0xE2, 0x96, 0x91, 0xE2, 0x96, 0x92, 0xE2, 0x96, 0x93] =
      some ([0xB0, 0xB1, 0xB2], [0xE2, 0x96, 0x91, 0xE2, 0x96, 0x92, 0xE2, 0x96, 0x93]) :=
  rfl

/-! ## Exit status (C4) -/

/-- C4: whatever wait status is reported for the child, the value returned
by the exit path of `main` (and so by `main`, whenever it returns) is the
child's exit status, a value from 0 to 255, when the child terminated
normally, and 127 otherwise. -/
theorem main_exit_status {σ τ : Type} (E : Env σ τ) (w : Wait) :
    (∀ s : Session σ τ,
      (WIFEXITED w.status = true ∧ (shutdown E w s).2 = WEXITSTATUS w.status ∧
        (shutdown E w s).2 ≤ 255) ∨
      (WIFEXITED w.status = false ∧ (shutdown E w s).2 = 127)) ∧
    (∀ fuel attr win tc fc rounds (s : Session σ τ) code,
      main E fuel attr win tc fc rounds w = .done (some (s, code)) →
      (WIFEXITED w.status = true ∧ code = WEXITSTATUS w.status ∧ code ≤ 255) ∨
      (WIFEXITED w.status = false ∧ code = 127)) := by
  have key : ∀ s : Session σ τ,
      (WIFEXITED w.status = true ∧ (shutdown E w s).2 = WEXITSTATUS w.status ∧
        (shutdown E w s).2 ≤ 255) ∨
      (WIFEXITED w.status = false ∧ (shutdown E w s).2 = 127) := by
    intro s
    unfold shutdown
    cases h : WIFEXITED w.status
    · right
      simp
    · left
      simp [WEXITSTATUS]
      omega
  refine ⟨key, ?_⟩
  intro fuel attr win tc fc rounds s code h
  unfold main at h
  cases hl : event_loop E fuel rounds (startup E attr win tc fc) with
  | done p =>
    obtain ⟨s1, b⟩ := p
    rw [hl] at h
    cases b
    · simp at h
    · simp only [Exec.done.injEq, Option.some.injEq] at h
      have := key s1
      rw [h] at this
      exact this
  | assert_failed => rw [hl] at h; simp at h
  | out_of_fuel => rw [hl] at h; simp at h

/-! ## Leaving the event loop and restoring the terminal (C3) -/

theorem copy_converted_read_fail {σ : Type} (ic : Iconv σ) (fuel : Nat) (from_fd : Source)
    (c : conv σ) (h : (read from_fd (read_count c.bytesleft)).1 < 1) :
    copy_converted ic fuel from_fd c =
      .done ⟨(read from_fd (read_count c.bytesleft)).1, c, [], []⟩ := by
  unfold copy_converted
  simp only [h, if_true]

theorem serve_master_term_orig {σ τ : Type} (E : Env σ τ) (fuel : Nat) (r : Round)
    (m w : Bool) (s s1 : Session σ τ) (b : Bool)
    (h : serve_master E fuel r m w s = .done (s1, b)) : s1.term_orig = s.term_orig := by
  unfold serve_master at h
  cases m
  · simp only [Bool.false_eq_true, if_false, Exec.done.injEq, Prod.mk.injEq] at h
    obtain ⟨rfl, _⟩ := h
    cases w <;> simp [resize]
  · simp only [if_true] at h
    cases hc : copy_converted E.ic_from fuel r.master s.from_child with
    | done c =>
      rw [hc] at h
      simp only at h
      split at h
      · simp only [Exec.done.injEq, Prod.mk.injEq] at h
        obtain ⟨rfl, _⟩ := h
        rfl
      · simp only [Exec.done.injEq, Prod.mk.injEq] at h
        obtain ⟨rfl, _⟩ := h
        cases w <;> simp [resize]
    | assert_failed => rw [hc] at h; simp at h
    | out_of_fuel => rw [hc] at h; simp at h

theorem iteration_term_orig {σ τ : Type} (E : Env σ τ) (fuel : Nat) (r : Round)
    (s s1 : Session σ τ) (b : Bool)
    (h : iteration E fuel r s = .done (s1, b)) : s1.term_orig = s.term_orig := by
  unfold iteration at h
  cases hsel : r.select with
  | eintr =>
    simp only [hsel, Exec.done.injEq, Prod.mk.injEq] at h
    obtain ⟨rfl, _⟩ := h
    rfl
  | failed =>
    simp only [hsel, Exec.done.injEq, Prod.mk.injEq] at h
    obtain ⟨rfl, _⟩ := h
    rfl
  | ready a m w =>
    simp only [hsel] at h
    cases a
    · simp only [Bool.false_eq_true, if_false] at h
      have := serve_master_term_orig E fuel r m w _ s1 b h
      exact this
    · simp only [if_true] at h
      cases hc : copy_converted E.ic_to fuel r.stdin s.to_child with
      | done c =>
        rw [hc] at h
        simp only at h
        split at h
        · simp only [Exec.done.injEq, Prod.mk.injEq] at h
          obtain ⟨rfl, _⟩ := h
          rfl
        · have := serve_master_term_orig E fuel r m w _ s1 b h
          exact this
      | assert_failed => rw [hc] at h; simp at h
      | out_of_fuel => rw [hc] at h; simp at h

theorem event_loop_term_orig {σ τ : Type} (E : Env σ τ) (fuel : Nat) :
    ∀ (rounds : List Round) (s s1 : Session σ τ) (b : Bool),
      event_loop E fuel rounds s = .done (s1, b) → s1.term_orig = s.term_orig := by
  intro rounds
  induction rounds with
  | nil =>
    intro s s1 b h
    simp only [event_loop, Exec.done.injEq, Prod.mk.injEq] at h
    obtain ⟨rfl, _⟩ := h
    rfl
  | cons r rs ih =>
    intro s s1 b h
    unfold event_loop at h
    cases hi : iteration E fuel r s with
    | done p =>
      obtain ⟨s2, b2⟩ := p
      rw [hi] at h
      have h2 := iteration_term_orig E fuel r s s2 b2 hi
      cases b2
      · simp only at h
        rw [ih s2 s1 b h, h2]
      · simp only [Exec.done.injEq, Prod.mk.injEq] at h
        obtain ⟨rfl, _⟩ := h
        exact h2
    | assert_failed => rw [hi] at h; simp at h
    | out_of_fuel => rw [hi] at h; simp at h

/-- After the exit path the terminals behind the three standard descriptors
carry the saved attributes. -/
theorem shutdown_attr {σ τ : Type} (E : Env σ τ) (w : Wait) (s : Session σ τ) (fd : Fd)
    (hfd : fd = Fd.stdin ∨ fd = Fd.stdout ∨ fd = Fd.stderr) :
    (shutdown E w s).1.tty_attr (E.tty fd) = s.term_orig := by
  simp only [shutdown, tcsetattr]
  rcases hfd with rfl | rfl | rfl <;> simp

/-- C3 (amended): a pass of the event loop in which a ready source (standard
input, or the pty master when it is served) yields a read result below 1
leaves the loop; and whenever `main` returns, by whichever branch the loop was
left, the terminals behind standard input, standard output and standard error
carry the attributes that standard input's terminal had before the session:
standard input is back at its pre-session values, and so is every descriptor
open on the same terminal. -/
theorem session_ends_and_restores {σ τ : Type} (E : Env σ τ) (fuel : Nat) :
    (∀ (r : Round) (s : Session σ τ) (m w : Bool), r.select = .ready true m w →
      (read r.stdin (read_count s.to_child.bytesleft)).1 < 1 →
      ∃ s1, iteration E fuel r s = .done (s1, true)) ∧
    (∀ (r : Round) (s : Session σ τ) (w : Bool), r.select = .ready false true w →
      (read r.master (read_count s.from_child.bytesleft)).1 < 1 →
      ∃ s1, iteration E fuel r s = .done (s1, true)) ∧
    (∀ (r : Round) (s : Session σ τ) (w : Bool) (c : CopyResult σ),
      r.select = .ready true true w →
      copy_converted E.ic_to fuel r.stdin s.to_child = .done c → 1 ≤ c.ret →
      (read r.master (read_count s.from_child.bytesleft)).1 < 1 →
      ∃ s1, iteration E fuel r s = .done (s1, true)) ∧
    (∀ attr win tc fc rounds wt s1,
      event_loop E fuel rounds (startup E attr win tc fc) = .done (s1, true) →
      ∃ s code, main E fuel attr win tc fc rounds wt = .done (some (s, code))) ∧
    (∀ attr win tc fc rounds wt s code,
      main E fuel attr win tc fc rounds wt = .done (some (s, code)) →
      s.tty_attr (E.tty Fd.stdin) = attr (E.tty Fd.stdin) ∧
      s.tty_attr (E.tty Fd.stdout) = attr (E.tty Fd.stdin) ∧
      s.tty_attr (E.tty Fd.stderr) = attr (E.tty Fd.stdin) ∧
      ∀ fd, E.tty fd = E.tty Fd.stdin → s.tty_attr (E.tty fd) = attr (E.tty fd)) := by
  refine ⟨?_, ?_, ?_, ?_, ?_⟩
  · intro r s m w hsel hrd
    unfold iteration
    simp only [hsel, if_true]
    rw [copy_converted_read_fail E.ic_to fuel r.stdin _ hrd]
    simp only [hrd, if_true]
    exact ⟨_, rfl⟩
  · intro r s w hsel hrd
    unfold iteration serve_master
    simp only [hsel, Bool.false_eq_true, if_false, if_true]
    rw [copy_converted_read_fail E.ic_from fuel r.master _ hrd]
    simp only [hrd, if_true]
    exact ⟨_, rfl⟩
  · intro r s w c hsel hc hret hrd
    unfold iteration serve_master
    simp only [hsel, if_true]
    rw [hc]
    have hn : ¬ c.ret < 1 := by omega
    simp only [hn, if_false]
    rw [copy_converted_read_fail E.ic_from fuel r.master _ hrd]
    simp only [hrd, if_true]
    exact ⟨_, rfl⟩
  · intro attr win tc fc rounds wt s1 h
    unfold main
    rw [h]
    exact ⟨_, _, rfl⟩
  · intro attr win tc fc rounds wt s code h
    unfold main at h
    cases hl : event_loop E fuel rounds (startup E attr win tc fc) with
    | done p =>
      obtain ⟨s1, b⟩ := p
      rw [hl] at h
      have horig : s1.term_orig = attr (E.tty Fd.stdin) := by
        rw [event_loop_term_orig E fuel rounds _ s1 b hl]
        simp [startup, tcsetattr]
      cases b
      · simp at h
      · simp only [Exec.done.injEq, Option.some.injEq] at h
        have h1 := shutdown_attr E wt s1 Fd.stdin (Or.inl rfl)
        have h2 := shutdown_attr E wt s1 Fd.stdout (Or.inr (Or.inl rfl))
        have h3 := shutdown_attr E wt s1 Fd.stderr (Or.inr (Or.inr rfl))
        rw [h, horig] at h1 h2 h3
        refine ⟨h1, h2, h3, ?_⟩
        intro fd hfd
        rw [hfd]
        exact h1
    | assert_failed => rw [hl] at h; simp at h
    | out_of_fuel => rw [hl] at h; simp at h

/-- Counterexample for C3: standard output is open on another terminal than
standard input, with other attributes (9 against 7) before the session.
Standard input reaches end of stream, the loop is left, and `main` returns
with the terminal of standard output at the attributes of standard input's. -/
theorem stdout_terminal_not_restored :
    final_attr (main two_terminals 4 (fun d => if d = 1 then 9 else 7) ⟨24, 80⟩
      fresh_conv fresh_conv [round_eof] ⟨0, 0⟩) (two_terminals.tty Fd.stdout) = some 7 ∧
    (fun d => if d = 1 then 9 else 7) (two_terminals.tty Fd.stdout) = (9 : Nat) := by
  decide

/-! ## Resize ordering (C6) -/

theorem copy_actions_no_resize (to_fd from_fd : Fd) (ret : Int) (written : List Nat) :
    ∀ x ∈ copy_actions to_fd from_fd ret written, ∀ ws, x ≠ Action.set_winsize Fd.master ws := by
  intro x hx ws
  unfold copy_actions at hx
  split at hx <;> simp at hx <;> rcases hx with rfl | rfl <;> simp

theorem serve_master_resize {σ τ : Type} (E : Env σ τ) (fuel : Nat) (r : Round) (m : Bool)
    (s s1 : Session σ τ) (h : serve_master E fuel r m true s = .done (s1, false)) :
    ∃ pre, s1.trace = s.trace ++ pre ++ [Action.read Fd.winch 1,
        Action.get_winsize Fd.stdin r.winsize, Action.set_winsize Fd.master s1.win] ∧
      s1.win = r.winsize.getD s.win ∧ s1.pty_win = s1.win ∧
      (∀ x ∈ pre, ∀ ws, x ≠ Action.set_winsize Fd.master ws) ∧
      (m = true → ∃ n, Action.read Fd.master n ∈ pre) := by
  unfold serve_master at h
  cases m
  · simp only [Bool.false_eq_true, if_false, if_true, Exec.done.injEq, Prod.mk.injEq,
      and_true] at h
    subst h
    exact ⟨[], by simp [resize], rfl, rfl, by simp, by simp⟩
  · simp only [if_true] at h
    cases hc : copy_converted E.ic_from fuel r.master s.from_child with
    | done c =>
      rw [hc] at h
      simp only at h
      split at h
      · simp at h
      · simp only [Exec.done.injEq, Prod.mk.injEq, and_true] at h
        subst h
        refine ⟨copy_actions Fd.stdout Fd.master c.ret c.written, by simp [resize], rfl, rfl,
          copy_actions_no_resize _ _ _ _, fun _ => ⟨c.ret, by simp [copy_actions]⟩⟩
    | assert_failed => rw [hc] at h; simp at h
    | out_of_fuel => rw [hc] at h; simp at h

/-- C6 (amended): in a pass of the event loop in which `select` reports the
resize channel ready and which does not leave the loop, the last three system
calls drain one marker, query the size of the real terminal and set the
window size of the pseudo-terminal to the size just queried (the previous
value of `win` if the query fails); so the size is set before any read of
child output in a later pass, whereas a read of the pty master in the same
pass comes before it. -/
theorem resize_at_end_of_pass {σ τ : Type} (E : Env σ τ) (fuel : Nat) (r : Round)
    (s s1 : Session σ τ) (a m : Bool) (hsel : r.select = .ready a m true)
    (hit : iteration E fuel r s = .done (s1, false)) :
    ∃ pre, s1.trace = s.trace ++ pre ++ [Action.read Fd.winch 1,
        Action.get_winsize Fd.stdin r.winsize, Action.set_winsize Fd.master s1.win] ∧
      s1.win = r.winsize.getD s.win ∧ s1.pty_win = s1.win ∧
      (∀ x ∈ pre, ∀ ws, x ≠ Action.set_winsize Fd.master ws) ∧
      (m = true → ∃ n, Action.read Fd.master n ∈ pre) := by
  unfold iteration at hit
  simp only [hsel] at hit
  cases a
  · simp only [Bool.false_eq_true, if_false] at hit
    have := serve_master_resize E fuel r m _ s1 hit
    exact this
  · simp only [if_true] at hit
    cases hc : copy_converted E.ic_to fuel r.stdin s.to_child with
    | done c =>
      rw [hc] at hit
      simp only at hit
      split at hit
      · simp at hit
      · obtain ⟨pre, h1, h2, h3, h4, h5⟩ := serve_master_resize E fuel r m _ s1 hit
        refine ⟨copy_actions Fd.master Fd.stdin c.ret c.written ++ pre, ?_, h2, h3, ?_, ?_⟩
        · rw [h1]
          simp
        · intro x hx ws
          rcases List.mem_append.mp hx with hx | hx
          · exact copy_actions_no_resize _ _ _ _ x hx ws
          · exact h4 x hx ws
        · intro hm
          obtain ⟨n, hn⟩ := h5 hm
          exact ⟨n, List.mem_append_right _ hn⟩
    | assert_failed => rw [hc] at hit; simp at hit
    | out_of_fuel => rw [hc] at hit; simp at hit

/-- Witness for C6 (amended): a pass with a pending marker, one byte of child
output, and a terminal now 50 rows by 132 columns. -/
theorem resize_at_end_of_pass_witness :
    round_resize.select = .ready false true true ∧
    iteration one_terminal 4 round_resize session_24x80 =
      .done (pass_state (iteration one_terminal 4 round_resize session_24x80) session_24x80,
        false) ∧
    ∃ pre, (pass_state (iteration one_terminal 4 round_resize session_24x80) session_24x80).trace
        = session_24x80.trace ++ pre ++ [Action.read Fd.winch 1,
          Action.get_winsize Fd.stdin round_resize.winsize,
          Action.set_winsize Fd.master
            (pass_state (iteration one_terminal 4 round_resize session_24x80) session_24x80).win] ∧
      (pass_state (iteration one_terminal 4 round_resize session_24x80) session_24x80).win
        = round_resize.winsize.getD session_24x80.win ∧
      (pass_state (iteration one_terminal 4 round_resize session_24x80) session_24x80).pty_win
        = (pass_state (iteration one_terminal 4 round_resize session_24x80) session_24x80).win ∧
      (∀ x ∈ pre, ∀ ws, x ≠ Action.set_winsize Fd.master ws) ∧
      (true = true → ∃ n, Action.read Fd.master n ∈ pre) :=
  ⟨rfl, rfl,
   resize_at_end_of_pass one_terminal 4 round_resize session_24x80
    (pass_state (iteration one_terminal 4 round_resize session_24x80) session_24x80)
    false true rfl rfl⟩

/-- Counterexample for C6: a marker is pending and `select` reports both the
pty master and the resize channel ready.  The child's output is read from the
pty master (and written to the terminal) before the window size of the
pseudo-terminal is set. -/
theorem resize_after_master_read :
    Nat.iterate sigwinch round_resize.signals 0 = 1 ∧
    pass_trace (iteration one_terminal 4 round_resize session_24x80) =
      some [Action.tcsetattr Fd.stdin 1007, Action.read Fd.master 1,
        Action.write Fd.stdout [0x41], Action.read Fd.winch 1,
        Action.get_winsize Fd.stdin (some ⟨50, 132⟩), Action.set_winsize Fd.master ⟨50, 132⟩] := by
  decide

end Cp437
